import Mathlib

/-!
Verification development for the recursive question-decomposition and
answering engine (`src/backend/agent.js`, `src/backend/crewaudit.js`).

The JavaScript source is shallowly embedded: strings are Lean `String`
(lists of characters), JS `Map`/`Set` become association lists / lists
kept in insertion order, `async` provider calls become oracle functions
passed in a `Providers` record, and a thrown JS exception becomes
`Except.error`.  JS `String.prototype.toLowerCase` and the whitespace
class of `trim` / `\s` are modelled on the ASCII fragment (the engine
only ever compares against ASCII sentinel phrases).
-/

namespace Agent

/-- ASCII whitespace, modelling the JS `\s` class / `String.prototype.trim`
on the ASCII fragment: space, tab, newline, carriage return, vertical tab,
form feed. -/
def isWs (c : Char) : Bool :=
  c.toNat == 32 || c.toNat == 9 || c.toNat == 10 || c.toNat == 13 ||
  c.toNat == 11 || c.toNat == 12

/-- ASCII lower-casing of one character, modelling JS `toLowerCase` on the
ASCII fragment (the same mapping as core `Char.toLower`). -/
def toLowerChar (c : Char) : Char :=
  if 65 ≤ c.toNat ∧ c.toNat ≤ 90 then Char.ofNat (c.toNat + 32) else c

/-- Model of `String.prototype.trim` on a character list: drop whitespace from both
ends. -/
def jsTrimList (l : List Char) : List Char :=
  (((l.dropWhile isWs).reverse).dropWhile isWs).reverse

/-- Model of `String.prototype.trim` on strings. -/
def jsTrimStr (s : String) : String :=
  String.mk (jsTrimList s.toList)

/-- Model of `text.replace(/\s+/g, " ")`: every maximal run of whitespace becomes a
single space.  The boolean flag records whether the previous character was
whitespace (in which case further whitespace is dropped). -/
def collapseWsAux : Bool → List Char → List Char
  | _, [] => []
  | prevWs, c :: cs =>
    if isWs c then
      if prevWs then collapseWsAux true cs
      else ' ' :: collapseWsAux true cs
    else c :: collapseWsAux false cs

/-- The normalizer pipeline on character lists, in source order:
`String(s || "").trim().replace(/\s+/g, " ").toLowerCase()`. -/
def normList (l : List Char) : List Char :=
  (collapseWsAux false (jsTrimList l)).map toLowerChar

/-- The key normalizer `normalize` from `answerWithAgent` (agent.js line 391). -/
def normalize (s : String) : String :=
  String.mk (normList s.toList)

/-! ### Lemmas about the character layer -/

theorem toNat_ofNat_of_lt {n : Nat} (h : n < 55296) : (Char.ofNat n).toNat = n := by
  rw [Char.ofNat, dif_pos (Or.inl h)]
  rfl

theorem toNat_toLowerChar_of_upper {c : Char}
    (h : 65 ≤ c.toNat ∧ c.toNat ≤ 90) :
    (toLowerChar c).toNat = c.toNat + 32 := by
  unfold toLowerChar
  rw [if_pos h]
  exact toNat_ofNat_of_lt (by omega)

theorem toLowerChar_of_not_upper {c : Char}
    (h : ¬ (65 ≤ c.toNat ∧ c.toNat ≤ 90)) : toLowerChar c = c := by
  unfold toLowerChar
  rw [if_neg h]

theorem toLowerChar_toLowerChar (c : Char) :
    toLowerChar (toLowerChar c) = toLowerChar c := by
  by_cases h : 65 ≤ c.toNat ∧ c.toNat ≤ 90
  · have hd : (toLowerChar c).toNat = c.toNat + 32 := toNat_toLowerChar_of_upper h
    generalize toLowerChar c = d at hd ⊢
    exact toLowerChar_of_not_upper (by omega)
  · rw [toLowerChar_of_not_upper h, toLowerChar_of_not_upper h]

theorem isWs_toLowerChar (c : Char) : isWs (toLowerChar c) = isWs c := by
  by_cases h : 65 ≤ c.toNat ∧ c.toNat ≤ 90
  · have hd : (toLowerChar c).toNat = c.toNat + 32 := toNat_toLowerChar_of_upper h
    have hl : isWs (toLowerChar c) = false := by
      simp only [isWs, hd, Bool.or_eq_false_iff, beq_eq_false_iff_ne, ne_eq]
      omega
    have hr : isWs c = false := by
      simp only [isWs, Bool.or_eq_false_iff, beq_eq_false_iff_ne, ne_eq]
      omega
    rw [hl, hr]
  · rw [toLowerChar_of_not_upper h]

theorem toLowerChar_space : toLowerChar ' ' = ' ' := rfl

theorem map_toLowerChar_map_toLowerChar (l : List Char) :
    (l.map toLowerChar).map toLowerChar = l.map toLowerChar := by
  induction l with
  | nil => rfl
  | cons c cs ih => simp [List.map_cons, ih, toLowerChar_toLowerChar]

theorem collapseWsAux_map_toLowerChar (b : Bool) (l : List Char) :
    collapseWsAux b (l.map toLowerChar) = (collapseWsAux b l).map toLowerChar := by
  induction l generalizing b with
  | nil => rfl
  | cons c cs ih =>
    simp only [List.map_cons, collapseWsAux, isWs_toLowerChar]
    by_cases h : isWs c = true
    · by_cases hb : b = true
      · simp [h, hb, ih]
      · simp at hb
        simp [h, hb, ih, toLowerChar_space]
    · simp at h
      simp [h, ih]

theorem jsTrimList_map_toLowerChar (l : List Char) :
    jsTrimList (l.map toLowerChar) = (jsTrimList l).map toLowerChar := by
  unfold jsTrimList
  rw [List.dropWhile_map, ← List.map_reverse, List.dropWhile_map, ← List.map_reverse]
  have : (fun c => isWs (toLowerChar c)) = isWs := by
    funext c; exact isWs_toLowerChar c
  simp only [Function.comp_def, this]

/-- The first character, when present, is not whitespace. -/
def HeadNotWs (l : List Char) : Prop := ∀ c, l.head? = some c → isWs c = false

/-- The final character, when present, is not whitespace. -/
def LastNotWs (l : List Char) : Prop := ∀ c, l.getLast? = some c → isWs c = false

/-- No whitespace run survives: every whitespace character is a single
space followed by a non-whitespace character (or the end). -/
def CollapsedOk : List Char → Prop
  | [] => True
  | c :: cs => (isWs c = true → c = ' ' ∧ HeadNotWs cs) ∧ CollapsedOk cs

theorem headNotWs_dropWhile (l : List Char) : HeadNotWs (l.dropWhile isWs) := by
  intro c hc
  have h := List.head?_dropWhile_not isWs l
  rw [hc] at h
  exact h

theorem headNotWs_prefix {x m : List Char} (hx : x <+: m) (hm : HeadNotWs m) :
    HeadNotWs x := by
  intro c hc
  rcases x with _ | ⟨d, ds⟩
  · simp at hc
  · obtain ⟨t, ht⟩ := hx
    rcases m with _ | ⟨e, es⟩
    · simp at ht
    · simp only [List.head?_cons, Option.some.injEq] at hc
      subst hc
      simp only [List.cons_append, List.cons.injEq] at ht
      have := hm e rfl
      rw [← ht.1] at this
      exact this

theorem headNotWs_jsTrimList (l : List Char) : HeadNotWs (jsTrimList l) := by
  unfold jsTrimList
  refine headNotWs_prefix ?_ (headNotWs_dropWhile l)
  have h : (l.dropWhile isWs).reverse.dropWhile isWs <:+
      (l.dropWhile isWs).reverse :=
    List.dropWhile_suffix isWs
  have h2 := List.reverse_prefix.mpr h
  rwa [List.reverse_reverse] at h2

theorem lastNotWs_jsTrimList (l : List Char) : LastNotWs (jsTrimList l) := by
  intro c hc
  unfold jsTrimList at hc
  rw [List.getLast?_reverse] at hc
  exact headNotWs_dropWhile _ c hc

theorem jsTrimList_eq_self {l : List Char} (h1 : HeadNotWs l) (h2 : LastNotWs l) :
    jsTrimList l = l := by
  unfold jsTrimList
  have e1 : l.dropWhile isWs = l := by
    cases l with
    | nil => rfl
    | cons c cs =>
      rw [List.dropWhile_cons_of_neg]
      simp [h1 c rfl]
  rw [e1]
  have e2 : l.reverse.dropWhile isWs = l.reverse := by
    cases hr : l.reverse with
    | nil => rfl
    | cons c cs =>
      have hcw : isWs c = false := by
        have hh : l.reverse.head? = some c := by rw [hr]; rfl
        rw [List.head?_reverse] at hh
        exact h2 c hh
      rw [List.dropWhile_cons_of_neg]
      simp [hcw]
  rw [e2, List.reverse_reverse]

theorem collapseWsAux_cons_ws_true {c : Char} (h : isWs c = true) (cs : List Char) :
    collapseWsAux true (c :: cs) = collapseWsAux true cs := by
  simp [collapseWsAux, h]

theorem collapseWsAux_cons_ws_false {c : Char} (h : isWs c = true) (cs : List Char) :
    collapseWsAux false (c :: cs) = ' ' :: collapseWsAux true cs := by
  simp [collapseWsAux, h]

theorem collapseWsAux_cons_not_ws {c : Char} (h : isWs c = false) (b : Bool)
    (cs : List Char) :
    collapseWsAux b (c :: cs) = c :: collapseWsAux false cs := by
  simp [collapseWsAux, h]

theorem headNotWs_collapse_true (l : List Char) :
    HeadNotWs (collapseWsAux true l) := by
  induction l with
  | nil => intro c hc; simp [collapseWsAux] at hc
  | cons c cs ih =>
    by_cases h : isWs c = true
    · rw [collapseWsAux_cons_ws_true h]; exact ih
    · rw [collapseWsAux_cons_not_ws (by simpa using h)]
      intro d hd
      simp only [List.head?_cons, Option.some.injEq] at hd
      subst hd
      simpa using h

theorem collapsedOk_collapse (l : List Char) (b : Bool) :
    CollapsedOk (collapseWsAux b l) := by
  induction l generalizing b with
  | nil => simp [collapseWsAux, CollapsedOk]
  | cons c cs ih =>
    by_cases h : isWs c = true
    · cases b with
      | true =>
        rw [collapseWsAux_cons_ws_true h]
        exact ih true
      | false =>
        rw [collapseWsAux_cons_ws_false h]
        exact ⟨fun _ => ⟨rfl, headNotWs_collapse_true cs⟩, ih true⟩
    · rw [collapseWsAux_cons_not_ws (by simpa using h)]
      exact ⟨fun hcontra => absurd hcontra (by simpa using h), ih false⟩

theorem collapse_true_eq_false {l : List Char} (h : HeadNotWs l) :
    collapseWsAux true l = collapseWsAux false l := by
  cases l with
  | nil => rfl
  | cons c cs =>
    have hc : isWs c = false := h c rfl
    rw [collapseWsAux_cons_not_ws hc, collapseWsAux_cons_not_ws hc]

theorem collapse_eq_self {l : List Char} (h : CollapsedOk l) :
    collapseWsAux false l = l := by
  induction l with
  | nil => rfl
  | cons c cs ih =>
    obtain ⟨h1, h2⟩ := h
    by_cases hc : isWs c = true
    · obtain ⟨hsp, hhd⟩ := h1 hc
      rw [collapseWsAux_cons_ws_false hc, collapse_true_eq_false hhd, ih h2, hsp]
    · rw [collapseWsAux_cons_not_ws (by simpa using hc), ih h2]

theorem collapse_collapse (l : List Char) :
    collapseWsAux false (collapseWsAux false l) = collapseWsAux false l :=
  collapse_eq_self (collapsedOk_collapse l false)

theorem lastNotWs_cons_of_ne {y : Char} {m : List Char} (hm : m ≠ [])
    (h : LastNotWs m) : LastNotWs (y :: m) := by
  intro c hc
  rcases m with _ | ⟨e, es⟩
  · exact absurd rfl hm
  · rw [List.getLast?_cons_cons] at hc
    exact h c hc

theorem collapse_last (l : List Char) : ∀ b : Bool, LastNotWs l →
    LastNotWs (collapseWsAux b l) ∧ (l ≠ [] → collapseWsAux b l ≠ []) := by
  induction l with
  | nil =>
    intro b h
    exact ⟨h, fun hne => absurd rfl hne⟩
  | cons c cs ih =>
    intro b hlast
    cases cs with
    | nil =>
      have hc : isWs c = false := hlast c (by simp)
      constructor
      · intro d hd
        rw [collapseWsAux_cons_not_ws hc] at hd
        simp only [collapseWsAux, List.getLast?_singleton, Option.some.injEq] at hd
        subst hd; exact hc
      · intro _
        rw [collapseWsAux_cons_not_ws hc]
        simp
    | cons d ds =>
      have htail : LastNotWs (d :: ds) := by
        intro e he
        exact hlast e (by rw [List.getLast?_cons_cons]; exact he)
      by_cases hc : isWs c = true
      · cases b with
        | true =>
          rw [collapseWsAux_cons_ws_true hc]
          obtain ⟨ihL, ihNe⟩ := ih true htail
          exact ⟨ihL, fun _ => ihNe (by simp)⟩
        | false =>
          rw [collapseWsAux_cons_ws_false hc]
          obtain ⟨ihL, ihNe⟩ := ih true htail
          exact ⟨lastNotWs_cons_of_ne (ihNe (by simp)) ihL, fun _ => by simp⟩
      · rw [collapseWsAux_cons_not_ws (by simpa using hc)]
        obtain ⟨ihL, ihNe⟩ := ih false htail
        exact ⟨lastNotWs_cons_of_ne (ihNe (by simp)) ihL, fun _ => by simp⟩

theorem headNotWs_collapse_trim (l : List Char) :
    HeadNotWs (collapseWsAux false (jsTrimList l)) := by
  cases ht : jsTrimList l with
  | nil => intro c hc; simp [collapseWsAux] at hc
  | cons c cs =>
    have hc : isWs c = false := by
      have := headNotWs_jsTrimList l c
      rw [ht] at this
      exact this rfl
    intro d hd
    rw [collapseWsAux_cons_not_ws hc] at hd
    simp only [List.head?_cons, Option.some.injEq] at hd
    subst hd
    exact hc

theorem lastNotWs_collapse_trim (l : List Char) :
    LastNotWs (collapseWsAux false (jsTrimList l)) :=
  (collapse_last (jsTrimList l) false (lastNotWs_jsTrimList l)).1

theorem normList_normList (l : List Char) :
    normList (normList l) = normList l := by
  unfold normList
  rw [jsTrimList_map_toLowerChar,
    jsTrimList_eq_self (headNotWs_collapse_trim l) (lastNotWs_collapse_trim l),
    collapseWsAux_map_toLowerChar, collapse_collapse,
    map_toLowerChar_map_toLowerChar]

/-- C9: the key normalizer (agent.js line 391,
`String(s || "").trim().replace(/\s+/g, " ").toLowerCase()`) is
idempotent — `normalize (normalize s) = normalize s` for every string —
and it folds whitespace runs to one space, trims the edges and
lower-cases, so that `normalize "  What IS x "` coincides with
`normalize "what is x"`. -/
theorem normalize_idempotent_and_folds :
    (∀ s : String, normalize (normalize s) = normalize s) ∧
    normalize "  What IS x " = normalize "what is x" := by
  constructor
  · intro s
    unfold normalize
    have h : (String.mk (normList s.toList)).toList = normList s.toList := rfl
    rw [h, normList_normList]
  · decide

/-! ### Substring machinery (JS `includes` / `startsWith`) -/

/-- Boolean prefix test on character lists. -/
def charsPrefixOf : List Char → List Char → Bool
  | [], _ => true
  | _ :: _, [] => false
  | a :: as, b :: bs => a == b && charsPrefixOf as bs

/-- Model of `String.prototype.includes`: `sub` occurs contiguously inside `t`. -/
def charsContains : List Char → List Char → Bool
  | [], sub => charsPrefixOf sub []
  | c :: rest, sub => charsPrefixOf sub (c :: rest) || charsContains rest sub

/-- Model of `text.toLowerCase()` on the character list of a string. -/
def lcList (s : String) : List Char := s.toList.map toLowerChar

/-- The predicate `isMcpNotFound` (agent.js lines 57–73): decides whether the MCP
knowledge-base reply counts as "didn't find it".  The checks run in source
order; note the early `return false` for "policy file not found". -/
def isMcpNotFound (text : String) : Bool :=
  if text = "" then true
  else
    if charsContains (lcList text) "not available in our current document".toList then
      true
    else if charsContains (lcList text) "company information file not found".toList then
      true
    else if charsContains (lcList text) "policy file not found".toList then
      false
    else if charsContains (lcList text) "no companies found in the knowledge base".toList then
      true
    else if charsPrefixOf "error:".toList (lcList text) then
      true
    else false

/-- Does the text at this point begin with optional whitespace and then
the label "sources:" (case-insensitively)?  This is the `\s*Sources:` part
of the regex in `stripSourcesSection`. -/
def sourcesLabelAt (l : List Char) : Bool :=
  charsPrefixOf "sources:".toList ((l.dropWhile isWs).map toLowerChar)

/-- Truncate at the first newline followed by `\s*Sources:`
(case-insensitive); models the leftmost match of the non-global regex
`/\n\s*Sources:\s*[\s\S]*$/i` used by `replace`. -/
def stripSourcesList : List Char → List Char
  | [] => []
  | c :: cs =>
    if c == '\n' && sourcesLabelAt cs then []
    else c :: stripSourcesList cs

/-- The function `stripSourcesSection` (agent.js lines 33–37). -/
def stripSourcesSection (text : String) : String :=
  if text = "" then ""
  else String.mk (jsTrimList (stripSourcesList text.toList))

/-! ### Providers and the resolution pipeline -/

/-- One web search result after the shaping in `searchWeb`
(`{title, link, snippet}` with missing fields defaulted to `""`). -/
structure SearchResult where
  title : String
  link : String
  snippet : String
deriving DecidableEq

/-- Result shape of `answerFromWeb`. -/
structure WebAnswer where
  ok : Bool
  text : String
  sources : List String
deriving DecidableEq

/-- The external capability providers, as oracles.  `kb` is
`callAskChatGPT` (may throw → `Except.error`); `searchWeb` is the SerpAPI
call (throws when `SERPAPI_API_KEY` is missing or the HTTP request fails);
`synth` is the OpenAI completion inside `answerFromWeb`; `classify` is
`isQuantifiable`, `decompose` is `decomposeToQuantifiable` and `followups`
is `detectFollowupsFromAnswer` (those three swallow malformed payloads and
return plain values, so they are modelled total). -/
structure Providers where
  classify : String → Bool
  kb : String → Except Unit String
  searchWeb : String → Except Unit (List SearchResult)
  synth : String → List SearchResult → Except Unit String
  decompose : String → List String
  followups : String → String → List String

/-- The expression `results.filter((r) => r.link).map((r) => r.link)` from
`answerFromWeb`: the links (JS-truthy, i.e. non-empty) of the snippets
used for synthesis. -/
def webLinks (rs : List SearchResult) : List String :=
  (rs.filter (fun r => r.link != "")).map (fun r => r.link)

/-- The function `answerFromWeb` (agent.js lines 115–158): search, build the snippet
context, synthesize, and report the links of the snippets used. -/
def answerFromWeb (P : Providers) (question : String) : Except Unit WebAnswer :=
  match P.searchWeb question with
  | .error e => .error e
  | .ok results =>
    if results.isEmpty then
      .ok ⟨false, "No web results found.", []⟩
    else
      match P.synth question results with
      | .error e => .error e
      | .ok raw => .ok ⟨true, jsTrimStr raw, webLinks results⟩

/-- An entry of the `answered` map (the objects passed to `answered.set`
in agent.js lines 453–461 and 504–512). -/
structure AnsweredEntry where
  questionOriginal : String
  quantifiable : Bool
  answer : String
  source : Option String
  sources : List String
  parentOriginal : Option String
  parentKey : Option String
deriving DecidableEq

/-- A frontier ("pocket") item. -/
structure Node where
  questionOriginal : String
  parentOriginal : Option String
  depth : Nat
deriving DecidableEq

/-- Model of `parentOriginal ? normalize(parentOriginal) : null` (JS truthiness:
the empty string is falsy). -/
def optNormalize (po : Option String) : Option String :=
  match po with
  | none => none
  | some p => if p = "" then none else some (normalize p)

/-- The shared next-node generation of both expansion sites
(`.map(x => String(x || "").trim()).filter(Boolean).map(...)` at
agent.js lines 467–477 and 518–528). -/
def expandNodes (parent : String) (depth : Nat) (subs : List String) :
    List Node :=
  ((subs.map jsTrimStr).filter (fun s => s != "")).map
    (fun sq => Node.mk sq (some parent) (depth + 1))

/-- The web fallback inside the `catch` block (agent.js lines 497–501):
answer text (stripped, or the "No data found." sentinel), source label,
source links.  An `answerFromWeb` exception propagates — the `catch`
block does not guard it. -/
def webFallback (P : Providers) (q : String) :
    Except Unit (String × Option String × List String) :=
  match answerFromWeb P q with
  | .error e => .error e
  | .ok web =>
    .ok (if web.ok then stripSourcesSection web.text else "No data found.",
      some "web", web.sources)

/-- The `try { MCP } catch { web }` tiered resolution of a quantifiable
question (agent.js lines 484–502): a thrown knowledge-base call and a
not-found reply both enter the catch block. -/
def resolveQuantifiable (P : Providers) (q : String) :
    Except Unit (String × Option String × List String) :=
  match P.kb q with
  | .ok mcpAnswer =>
    if isMcpNotFound mcpAnswer = false then
      .ok (jsTrimStr mcpAnswer, some "mcp", [])
    else webFallback P q
  | .error _ => webFallback P q

/-- The per-question body of the `uniquePocket.map(...)` closure in
`answerWithAgent` (agent.js lines 444–532): classify, then resolve
(MCP with web fallback) and expand.  Returns the entry written into
`answered` for this question together with the generated next-level
nodes; `Except.error` models an exception escaping the closure (which
rejects the surrounding `Promise.all`). -/
def processNode (P : Providers) (MAXD : Nat) (qOriginal : String)
    (parentOriginal : Option String) (depth : Nat) :
    Except Unit (AnsweredEntry × List Node) :=
  if P.classify qOriginal = false then
    .ok (⟨qOriginal, false, "[Not answered — non-quantifiable]", none, [],
        parentOriginal, optNormalize parentOriginal⟩,
      if depth < MAXD then expandNodes qOriginal depth (P.decompose qOriginal)
      else [])
  else
    match resolveQuantifiable P qOriginal with
    | .error e => .error e
    | .ok (answerText, src, sources) =>
      .ok (⟨qOriginal, true, answerText, src, sources,
          parentOriginal, optNormalize parentOriginal⟩,
        if depth < MAXD then
          expandNodes qOriginal depth (P.followups qOriginal answerText)
        else [])

/-! ### The expansion tree engine -/

/-- One recorded parent→child edge. -/
structure Edge where
  key : String
  questionOriginal : String
deriving DecidableEq

/-- The engine's mutable state: `answered`, `children`, `seen`,
`totalGenerated` (agent.js lines 395–401), as insertion-ordered lists. -/
structure EngineState where
  answered : List (String × AnsweredEntry)
  children : List (String × List Edge)
  seen : List String
  totalGenerated : Nat
deriving DecidableEq

/-- JS `Map.prototype.set`: replace in place when the key is present,
else append. -/
def mapSet {α : Type} : List (String × α) → String → α → List (String × α)
  | [], k, v => [(k, v)]
  | (k', v') :: rest, k, v =>
    if k' = k then (k, v) :: rest else (k', v') :: mapSet rest k v

/-- JS `Map.prototype.get`. -/
def mlookup {α : Type} (m : List (String × α)) (k : String) : Option α :=
  (m.find? (fun p => p.1 == k)).map (fun p => p.2)

/-- The closure `addChild` (agent.js lines 403–410): record a parent→child edge,
skipping duplicates of the same child key under the same parent. -/
def addChild (st : EngineState) (parentKey childKey childOriginal : String) :
    EngineState :=
  if parentKey = "" then st
  else
    let arr := (mlookup st.children parentKey).getD []
    let arr' :=
      if arr.any (fun x => x.key == childKey) then arr
      else arr ++ [⟨childKey, childOriginal⟩]
    { st with children := mapSet st.children parentKey arr' }

/-- Model of `node.parentOriginal ? String(node.parentOriginal).trim() : null`
(JS truthiness on the untrimmed value). -/
def dedupParent (node : Node) : Option String :=
  match node.parentOriginal with
  | none => none
  | some p => if p = "" then none else some (jsTrimStr p)

/-- The edge-recording step for one frontier node
(`if (parentKey) addChild(parentKey, qKey, q)`). -/
def recordEdge (st : EngineState) (node : Node) : EngineState :=
  match optNormalize (dedupParent node) with
  | some pk =>
    addChild st pk (normalize (jsTrimStr node.questionOriginal))
      (jsTrimStr node.questionOriginal)
  | none => st

/-- The sequential edge-recording / dedup pass at the top of each round
(agent.js lines 420–438): record the edge (before the dedup check), then
drop the node when its key was already seen. -/
def dedupPass (st : EngineState) : List Node → EngineState × List Node
  | [] => (st, [])
  | node :: rest =>
    if jsTrimStr node.questionOriginal = "" then dedupPass st rest
    else
      let st1 := recordEdge st node
      if normalize (jsTrimStr node.questionOriginal) ∈ st1.seen then
        dedupPass st1 rest
      else
        let st2 := { st1 with
          seen := st1.seen ++ [normalize (jsTrimStr node.questionOriginal)] }
        let r := dedupPass st2 rest
        (r.1, Node.mk (jsTrimStr node.questionOriginal) (dedupParent node)
          node.depth :: r.2)

/-- Resolve the deduplicated pocket (the `Promise.all` of agent.js line
443).  Keys are pairwise distinct after dedup, so this sequential
interleaving of the per-key `answered.set` writes is faithful; a rejected
task rejects the whole round, as in JS. -/
def processNodes (P : Providers) (MAXD : Nat) :
    EngineState → List Node → Except Unit (EngineState × List Node)
  | st, [] => .ok (st, [])
  | st, n :: rest =>
    match processNode P MAXD n.questionOriginal n.parentOriginal n.depth with
    | .error e => .error e
    | .ok (entry, next) =>
      let st' : EngineState :=
        { st with
          answered := mapSet st.answered (normalize n.questionOriginal) entry
          totalGenerated := st.totalGenerated + next.length }
      match processNodes P MAXD st' rest with
      | .error e => .error e
      | .ok (st2, rests) => .ok (st2, next ++ rests)

/-- One iteration of `while (pocket.length > 0)` (agent.js lines 418–537). -/
def processRound (P : Providers) (MAXD : Nat) (st : EngineState)
    (pocket : List Node) : Except Unit (EngineState × List Node) :=
  let (st1, uniq) := dedupPass st pocket
  if uniq.isEmpty then .ok (st1, [])
  else processNodes P MAXD st1 uniq

/-- The frontier loop.  The JS loop is unbounded; fuel is a modelling
device, and `engine_terminates_within_depth_rounds` (C4) shows that
`MAXD + 2` fuel is always enough for a depth-0 start. -/
def runLoop (P : Providers) (MAXD : Nat) :
    Nat → EngineState → List Node → Except Unit EngineState
  | 0, st, _ => .ok st
  | fuel + 1, st, pocket =>
    if pocket.isEmpty then .ok st
    else
      match processRound P MAXD st pocket with
      | .error e => .error e
      | .ok (st1, next) => runLoop P MAXD fuel st1 next

/-! ### Top level -/

/-- One chat message; `content = none` models a non-string `content`. -/
structure ChatMsg where
  role : String
  content : Option String
deriving DecidableEq

def extractLatestAux : List ChatMsg → String
  | [] => ""
  | m :: rest =>
    if m.role = "user" then
      match m.content with
      | some c => if jsTrimStr c = "" then extractLatestAux rest else jsTrimStr c
      | none => extractLatestAux rest
    else extractLatestAux rest

/-- The function `extractLatestUserQuestion` (agent.js lines 23–31): scan the chat from
the end for a user turn whose string content trims to something
non-empty. -/
def extractLatestUserQuestion (chat : List ChatMsg) : String :=
  extractLatestAux chat.reverse

structure Stats where
  questionsAnswered : Nat
  totalGenerated : Nat
  totalSeen : Nat
deriving DecidableEq

structure Block where
  id : String
  question : String
  answer : String
  sources : List String
deriving DecidableEq

/-- The two top-level result shapes of `answerWithAgent`:
`{ok:false, error}` and `{ok:true, blocks, rendered, stats}`. -/
inductive AgentResult where
  | failure (error : String)
  | success (blocks : List Block) (rendered : String) (stats : Stats)
deriving DecidableEq

/-- The function `render` (agent.js lines 540–560), diagnostics only.  The JS recursion
carries no depth guard (it would diverge on a cyclic edge table); fuel
bounds the recursion in the model and `totalGenerated + 1` covers every
acyclic chain a run can build. -/
def renderTree (st : EngineState) : Nat → Nat → String → String
  | 0, _, _ => ""
  | fuel + 1, indent, qOriginal =>
    let qKey := normalize qOriginal
    let pad := String.mk (List.replicate (2 * indent) ' ')
    let entryLines :=
      match mlookup st.answered qKey with
      | some entry =>
        pad ++ "  Quantifiable: " ++ (if entry.quantifiable then "yes" else "no")
          ++ "\n" ++ pad ++ "  A: " ++ entry.answer ++ "\n"
          ++ (match entry.source with
              | some s => if s = "" then "" else pad ++ "  Source: " ++ s ++ "\n"
              | none => "")
      | none =>
        pad ++ "  Quantifiable: unknown\n" ++ pad ++ "  A: [No entry generated]\n"
    let kids := (mlookup st.children qKey).getD []
    (pad ++ "- Q: " ++ qOriginal ++ "\n") ++ entryLines ++
      String.join (kids.map (fun k => renderTree st fuel (indent + 1) k.questionOriginal))

/-- The engine entry point `answerWithAgent` (agent.js lines 385–579). -/
def answerWithAgent (P : Providers) (chat : List ChatMsg) :
    Except Unit AgentResult :=
  let initialQuestion := extractLatestUserQuestion chat
  if initialQuestion = "" then .ok (.failure "No user question found.")
  else
    let MAXD := 1
    let st0 : EngineState := ⟨[], [], [], 1⟩
    let pocket0 := [Node.mk (jsTrimStr initialQuestion) none 0]
    match runLoop P MAXD (MAXD + 2) st0 pocket0 with
    | .error e => .error e
    | .ok st =>
      let blocks := st.answered.enum.map
        (fun p => Block.mk (Nat.repr p.1) p.2.2.questionOriginal p.2.2.answer
          p.2.2.sources)
      .ok (.success blocks
        (renderTree st (st.totalGenerated + 1) 0 (jsTrimStr initialQuestion))
        ⟨blocks.length, st.totalGenerated, st.answered.length⟩)


/-! ### Pipeline reduction lemmas -/

theorem answerFromWeb_empty {P : Providers} {q : String}
    (hsw : P.searchWeb q = .ok []) :
    answerFromWeb P q = .ok ⟨false, "No web results found.", []⟩ := by
  unfold answerFromWeb
  simp only [hsw]
  rfl

theorem answerFromWeb_results {P : Providers} {q : String}
    {rs : List SearchResult} {u : String}
    (hsw : P.searchWeb q = .ok rs) (hne : rs ≠ [])
    (hsy : P.synth q rs = .ok u) :
    answerFromWeb P q = .ok ⟨true, jsTrimStr u, webLinks rs⟩ := by
  unfold answerFromWeb
  simp only [hsw, hsy]
  rw [if_neg (by simp [hne])]

theorem processNode_nonquant {P : Providers} {q : String} (MAXD : Nat)
    (po : Option String) (depth : Nat) (hq : P.classify q = false) :
    processNode P MAXD q po depth =
      .ok (⟨q, false, "[Not answered — non-quantifiable]", none, [],
        po, optNormalize po⟩,
        if depth < MAXD then expandNodes q depth (P.decompose q) else []) := by
  unfold processNode
  rw [if_pos hq]

theorem resolveQuantifiable_found {P : Providers} {q s : String}
    (hkb : P.kb q = .ok s) (hfound : isMcpNotFound s = false) :
    resolveQuantifiable P q = .ok (jsTrimStr s, some "mcp", []) := by
  unfold resolveQuantifiable
  simp only [hkb]
  rw [if_pos hfound]

theorem resolveQuantifiable_notfound {P : Providers} {q : String}
    (hkb : P.kb q = .error () ∨ ∃ s, P.kb q = .ok s ∧ isMcpNotFound s = true) :
    resolveQuantifiable P q = webFallback P q := by
  unfold resolveQuantifiable
  rcases hkb with hkb | ⟨s, hkb, hnf⟩
  · simp only [hkb]
  · simp only [hkb]
    rw [if_neg (by simp [hnf])]

theorem processNode_quant {P : Providers} {q a : String} {src : Option String}
    {links : List String} (MAXD : Nat) (po : Option String) (depth : Nat)
    (hq : P.classify q = true)
    (hres : resolveQuantifiable P q = .ok (a, src, links)) :
    processNode P MAXD q po depth =
      .ok (⟨q, true, a, src, links, po, optNormalize po⟩,
        if depth < MAXD then expandNodes q depth (P.followups q a) else []) := by
  unfold processNode
  rw [if_neg (by simp [hq])]
  simp only [hres]

theorem processNode_kb_found {P : Providers} {q s : String} (MAXD : Nat)
    (po : Option String) (depth : Nat)
    (hq : P.classify q = true) (hkb : P.kb q = .ok s)
    (hfound : isMcpNotFound s = false) :
    processNode P MAXD q po depth =
      .ok (⟨q, true, jsTrimStr s, some "mcp", [], po, optNormalize po⟩,
        if depth < MAXD then expandNodes q depth (P.followups q (jsTrimStr s))
        else []) :=
  processNode_quant MAXD po depth hq (resolveQuantifiable_found hkb hfound)

theorem webFallback_ok {P : Providers} {q : String} {w : WebAnswer}
    (hweb : answerFromWeb P q = .ok w) :
    webFallback P q =
      .ok (if w.ok then stripSourcesSection w.text else "No data found.",
        some "web", w.sources) := by
  unfold webFallback
  simp only [hweb]

/-! ### Concrete provider assemblies for witnesses and counterexamples -/

/-- Inert providers used to instantiate theorems on concrete inputs. -/
def stubProviders : Providers :=
  ⟨fun _ => false, fun _ => .error (), fun _ => .ok [], fun _ _ => .ok "",
    fun _ => [], fun _ _ => []⟩

/-- Providers whose knowledge base replies with a fixed text for a
quantifiable question. -/
def kbProviders (reply : String) : Providers :=
  { stubProviders with classify := fun _ => true, kb := fun _ => .ok reply }

/-- Providers with a throwing knowledge base and a one-snippet web
search. -/
def webProviders : Providers :=
  { stubProviders with
    classify := fun _ => true
    kb := fun _ => .error ()
    searchWeb := fun _ => .ok [⟨"T", "http://a", "S"⟩]
    synth := fun _ _ => .ok "Answer.\nSources: http://a" }

/-! ### C10 -/

/-- C10: a knowledge-base reply whose lower-cased text contains "policy
file not found" but neither "not available in our current document" nor
"company information file not found" is not a fallback trigger:
`isMcpNotFound` returns false — even when the reply also contains "no
companies found in the knowledge base" or begins with "error:" — and for
a quantifiable question the pipeline keeps the reply as a genuine
`"mcp"`-sourced answer, never reaching the web resolver. -/
theorem policy_file_reply_is_genuine (P : Providers) (q s : String)
    (MAXD : Nat) (po : Option String) (depth : Nat)
    (hpol : charsContains (lcList s) "policy file not found".toList = true)
    (h1 : charsContains (lcList s)
      "not available in our current document".toList = false)
    (h2 : charsContains (lcList s)
      "company information file not found".toList = false)
    (hq : P.classify q = true) (hkb : P.kb q = .ok s) :
    isMcpNotFound s = false ∧
    processNode P MAXD q po depth =
      .ok (⟨q, true, jsTrimStr s, some "mcp", [], po, optNormalize po⟩,
        if depth < MAXD then expandNodes q depth (P.followups q (jsTrimStr s))
        else []) := by
  have hs : s ≠ "" := by
    intro h
    rw [h] at hpol
    exact absurd hpol (by decide)
  have hmcp : isMcpNotFound s = false := by
    unfold isMcpNotFound
    rw [if_neg hs, if_neg (by rw [h1]; exact Bool.false_ne_true),
      if_neg (by rw [h2]; exact Bool.false_ne_true), if_pos hpol]
  exact ⟨hmcp, processNode_kb_found MAXD po depth hq hkb hmcp⟩

/-- Witness for `policy_file_reply_is_genuine` at a concrete reply that
also contains "no companies found in the knowledge base". -/
theorem policy_file_reply_is_genuine_witness :
    isMcpNotFound
        "Policy file not found. No companies found in the knowledge base."
      = false ∧
    processNode
        (kbProviders
          "Policy file not found. No companies found in the knowledge base.")
        1 "q" none 0 =
      .ok (⟨"q", true,
        "Policy file not found. No companies found in the knowledge base.",
        some "mcp", [], none, none⟩, []) := by
  have h := policy_file_reply_is_genuine
    (kbProviders
      "Policy file not found. No companies found in the knowledge base.")
    "q" "Policy file not found. No companies found in the knowledge base."
    1 none 0 (by decide) (by decide) (by decide) rfl rfl
  exact ⟨h.1, h.2.trans (by rfl)⟩

/-! ### C6 -/

/-- C6: if the classifier reports the question non-quantifiable, the
resolution returns the fixed sentinel "[Not answered — non-quantifiable]"
with `source = none` and empty source links, and the outcome is
independent of the knowledge-base and web oracles — neither resolver is
consulted for the question. -/
theorem nonquantifiable_short_circuit (P : Providers) (MAXD : Nat)
    (q : String) (po : Option String) (depth : Nat)
    (hq : P.classify q = false) :
    processNode P MAXD q po depth =
      .ok (⟨q, false, "[Not answered — non-quantifiable]", none, [],
        po, optNormalize po⟩,
        if depth < MAXD then expandNodes q depth (P.decompose q) else []) ∧
    ∀ kb' sw' sy',
      processNode { P with kb := kb', searchWeb := sw', synth := sy' }
          MAXD q po depth =
        processNode P MAXD q po depth := by
  refine ⟨processNode_nonquant MAXD po depth hq, ?_⟩
  intro kb' sw' sy'
  have h2 : processNode { P with kb := kb', searchWeb := sw', synth := sy' }
      MAXD q po depth =
      .ok (⟨q, false, "[Not answered — non-quantifiable]", none, [],
        po, optNormalize po⟩,
        if depth < MAXD then expandNodes q depth (P.decompose q) else []) :=
    processNode_nonquant MAXD po depth hq
  rw [h2, processNode_nonquant MAXD po depth hq]

/-- Witness for `nonquantifiable_short_circuit`. -/
theorem nonquantifiable_short_circuit_witness :
    processNode stubProviders 1 "Why do people like blue?" none 0 =
      .ok (⟨"Why do people like blue?", false,
        "[Not answered — non-quantifiable]", none, [], none, none⟩, []) :=
  ((nonquantifiable_short_circuit stubProviders 1 "Why do people like blue?"
    none 0 rfl).1).trans (by rfl)

/-! ### C7 -/

/-- C7 counterexample: a knowledge-base answer carrying a trailing
"Sources:" section is returned as the entry's answer text unstripped,
although `stripSourcesSection` would have removed that section. -/
theorem kb_answer_keeps_sources_section :
    processNode (kbProviders "Revenue was 40M.\nSources: http") 1 "q" none 0 =
      .ok (⟨"q", true, "Revenue was 40M.\nSources: http", some "mcp", [],
        none, none⟩, []) ∧
    stripSourcesSection "Revenue was 40M.\nSources: http" = "Revenue was 40M." ∧
    ("Revenue was 40M.\nSources: http" : String) ≠ "Revenue was 40M." :=
  ⟨rfl, by decide, by decide⟩

/-- C7 (amended): the trailing "Sources:" section is stripped from
web-tier answers before they become the entry's answer text, while
knowledge-base-tier answers are returned merely trimmed, without
stripping. -/
theorem strip_sources_applies_to_web_tier_only (P : Providers) (MAXD : Nat)
    (q : String) (po : Option String) (depth : Nat)
    (hq : P.classify q = true) :
    (∀ s, P.kb q = .ok s → isMcpNotFound s = false →
      (processNode P MAXD q po depth).map (fun p => p.1.answer) =
        .ok (jsTrimStr s)) ∧
    (∀ rs u, P.kb q = .error () → P.searchWeb q = .ok rs → rs ≠ [] →
      P.synth q rs = .ok u →
      (processNode P MAXD q po depth).map (fun p => p.1.answer) =
        .ok (stripSourcesSection (jsTrimStr u))) := by
  constructor
  · intro s hkb hf
    rw [processNode_kb_found MAXD po depth hq hkb hf]
    rfl
  · intro rs u hkb hsw hne hsy
    have hweb := answerFromWeb_results hsw hne hsy
    have hres : resolveQuantifiable P q =
        .ok (stripSourcesSection (jsTrimStr u), some "web", webLinks rs) := by
      rw [resolveQuantifiable_notfound (Or.inl hkb), webFallback_ok hweb]
      exact rfl
    rw [processNode_quant MAXD po depth hq hres]
    rfl

/-- Witness for `strip_sources_applies_to_web_tier_only`: the web answer
does get its "Sources:" section removed. -/
theorem strip_sources_applies_to_web_tier_only_witness :
    (processNode webProviders 1 "q2" none 0).map (fun p => p.1.answer) =
      .ok "Answer." := by
  have h := (strip_sources_applies_to_web_tier_only webProviders 1 "q2"
      none 0 rfl).2
    [⟨"T", "http://a", "S"⟩] "Answer.\nSources: http://a" rfl rfl
    (by decide) rfl
  exact h.trans (by rfl)

/-! ### C2 -/

/-- C2 counterexample: this knowledge-base reply contains one of the
claim's fixed not-found substrings ("no companies found in the knowledge
base"), yet the pipeline does not fall back to the web — the entry's
source stays "mcp" — because the reply also contains "policy file not
found", whose check exits first. -/
theorem notfound_substring_without_web_fallback :
    charsContains
        (lcList "Policy file not found. No companies found in the knowledge base.")
        "no companies found in the knowledge base".toList = true ∧
    (processNode
        (kbProviders
          "Policy file not found. No companies found in the knowledge base.")
        1 "qc" none 0).map (fun p => p.1.source) = .ok (some "mcp") :=
  ⟨by decide, rfl⟩

/-- C2 (amended): for a question classified quantifiable whose
knowledge-base call throws or whose reply `isMcpNotFound` classifies as
missing (the claim's substring set corrected for the "policy file not
found" early exit), and whose web search succeeds, the pipeline resolves
via the web: the entry's source is "web" and its source links are exactly
`webLinks rs`, the non-empty links of the snippets fetched and passed to
synthesis (empty when the search returned no snippets). -/
theorem web_fallback_source_and_links (P : Providers) (MAXD : Nat)
    (q : String) (po : Option String) (depth : Nat) (rs : List SearchResult)
    (hq : P.classify q = true)
    (hnf : P.kb q = .error () ∨ ∃ s, P.kb q = .ok s ∧ isMcpNotFound s = true)
    (hsw : P.searchWeb q = .ok rs)
    (hsy : ∃ u, P.synth q rs = .ok u) :
    ∃ e next, processNode P MAXD q po depth = .ok (e, next) ∧
      e.source = some "web" ∧ e.sources = webLinks rs := by
  rcases hsy with ⟨u, hsy⟩
  by_cases hrs : rs = []
  · subst hrs
    have hweb := answerFromWeb_empty hsw
    have hres := (resolveQuantifiable_notfound hnf).trans (webFallback_ok hweb)
    exact ⟨_, _, processNode_quant MAXD po depth hq hres, rfl, rfl⟩
  · have hweb := answerFromWeb_results hsw hrs hsy
    have hres := (resolveQuantifiable_notfound hnf).trans (webFallback_ok hweb)
    exact ⟨_, _, processNode_quant MAXD po depth hq hres, rfl, rfl⟩

/-- Witness for `web_fallback_source_and_links`. -/
theorem web_fallback_source_and_links_witness :
    ∃ e next,
      processNode webProviders 1 "q3" none 0 = .ok (e, next) ∧
      e.source = some "web" ∧
      e.sources = webLinks [⟨"T", "http://a", "S"⟩] :=
  web_fallback_source_and_links webProviders 1 "q3" none 0
    [⟨"T", "http://a", "S"⟩] rfl (Or.inl rfl) rfl
    ⟨"Answer.\nSources: http://a", rfl⟩

/-! ### Engine state lemmas -/

/-- The normalized key of a frontier node. -/
def nkey (n : Node) : String := normalize n.questionOriginal

/-- Edge list recorded under a parent key. -/
def edgesAt (st : EngineState) (pk : String) : List Edge :=
  (mlookup st.children pk).getD []

theorem mlookup_cons {α : Type} (k0 : String) (v0 : α)
    (rest : List (String × α)) (k : String) :
    mlookup ((k0, v0) :: rest) k =
      if k0 = k then some v0 else mlookup rest k := by
  by_cases h : k0 = k
  · subst h
    rw [if_pos rfl]
    simp only [mlookup]
    rw [List.find?_cons_of_pos _ (by simp)]
    rfl
  · rw [if_neg h]
    simp only [mlookup]
    rw [List.find?_cons_of_neg _ (by simp [h])]

theorem mlookup_mapSet_self {α : Type} (m : List (String × α)) (k : String)
    (v : α) : mlookup (mapSet m k v) k = some v := by
  induction m with
  | nil => simp [mapSet, mlookup_cons]
  | cons p rest ih =>
    obtain ⟨k0, v0⟩ := p
    by_cases h : k0 = k
    · subst h
      simp [mapSet, mlookup_cons]
    · simp only [mapSet]
      rw [if_neg h, mlookup_cons, if_neg h]
      exact ih

theorem mlookup_mapSet_other {α : Type} (m : List (String × α)) (k k' : String)
    (v : α) (h : k' ≠ k) : mlookup (mapSet m k v) k' = mlookup m k' := by
  induction m with
  | nil =>
    simp only [mapSet]
    rw [mlookup_cons, if_neg (fun hc => h hc.symm)]
  | cons p rest ih =>
    obtain ⟨k0, v0⟩ := p
    by_cases h0 : k0 = k
    · subst h0
      simp only [mapSet, eq_self_iff_true, if_true]
      rw [mlookup_cons, mlookup_cons, if_neg (fun hc => h hc.symm),
        if_neg (fun hc => h hc.symm)]
    · simp only [mapSet]
      rw [if_neg h0, mlookup_cons, mlookup_cons]
      by_cases h1 : k0 = k'
      · rw [if_pos h1, if_pos h1]
      · rw [if_neg h1, if_neg h1]
        exact ih

theorem mem_keys_of_mlookup {α : Type} {m : List (String × α)} {k : String}
    {v : α} (h : mlookup m k = some v) : k ∈ m.map Prod.fst := by
  induction m with
  | nil => simp [mlookup] at h
  | cons p rest ih =>
    obtain ⟨k0, v0⟩ := p
    rw [mlookup_cons] at h
    by_cases h0 : k0 = k
    · simp [h0]
    · rw [if_neg h0] at h
      simp only [List.map_cons, List.mem_cons]
      exact Or.inr (ih h)

theorem mlookup_isSome_of_mem {α : Type} {m : List (String × α)} {k : String}
    (h : k ∈ m.map Prod.fst) : (mlookup m k).isSome = true := by
  induction m with
  | nil => simp at h
  | cons p rest ih =>
    obtain ⟨k0, v0⟩ := p
    rw [mlookup_cons]
    by_cases h0 : k0 = k
    · rw [if_pos h0]
      rfl
    · rw [if_neg h0]
      simp only [List.map_cons, List.mem_cons] at h
      rcases h with h | h
      · exact absurd h.symm h0
      · exact ih h

theorem keys_mapSet_fresh {α : Type} (m : List (String × α)) (k : String)
    (v : α) (h : k ∉ m.map Prod.fst) :
    (mapSet m k v).map Prod.fst = m.map Prod.fst ++ [k] := by
  induction m with
  | nil => simp [mapSet]
  | cons p rest ih =>
    obtain ⟨k0, v0⟩ := p
    simp only [List.map_cons, List.mem_cons] at h
    push_neg at h
    simp only [mapSet]
    rw [if_neg (fun hc => h.1 hc.symm)]
    simp only [List.map_cons, List.cons_append, List.cons.injEq, true_and]
    exact ih h.2

theorem mlookup_isSome_mapSet {α : Type} (m : List (String × α)) (k k' : String)
    (v : α) (h : (mlookup m k').isSome = true) :
    (mlookup (mapSet m k v) k').isSome = true := by
  by_cases hk : k' = k
  · subst hk
    rw [mlookup_mapSet_self]
    rfl
  · rw [mlookup_mapSet_other m k k' v hk]
    exact h

theorem addChild_answered (st : EngineState) (pk ck co : String) :
    (addChild st pk ck co).answered = st.answered := by
  unfold addChild
  split <;> rfl

theorem addChild_seen (st : EngineState) (pk ck co : String) :
    (addChild st pk ck co).seen = st.seen := by
  unfold addChild
  split <;> rfl

theorem addChild_totalGenerated (st : EngineState) (pk ck co : String) :
    (addChild st pk ck co).totalGenerated = st.totalGenerated := by
  unfold addChild
  split <;> rfl

theorem recordEdge_fields (st : EngineState) (node : Node) :
    (recordEdge st node).answered = st.answered ∧
    (recordEdge st node).seen = st.seen ∧
    (recordEdge st node).totalGenerated = st.totalGenerated := by
  unfold recordEdge
  cases optNormalize (dedupParent node) with
  | none => exact ⟨rfl, rfl, rfl⟩
  | some pk =>
    exact ⟨addChild_answered st pk _ _, addChild_seen st pk _ _,
      addChild_totalGenerated st pk _ _⟩

theorem dedupPass_cons_skip {st : EngineState} {node : Node} {rest : List Node}
    (hq : jsTrimStr node.questionOriginal = "") :
    dedupPass st (node :: rest) = dedupPass st rest := by
  simp only [dedupPass]
  rw [if_pos hq]

theorem dedupPass_cons_seen {st : EngineState} {node : Node} {rest : List Node}
    (hq : jsTrimStr node.questionOriginal ≠ "")
    (hseen : normalize (jsTrimStr node.questionOriginal) ∈
      (recordEdge st node).seen) :
    dedupPass st (node :: rest) = dedupPass (recordEdge st node) rest := by
  simp only [dedupPass]
  rw [if_neg hq, if_pos hseen]

theorem dedupPass_cons_new {st : EngineState} {node : Node} {rest : List Node}
    (hq : jsTrimStr node.questionOriginal ≠ "")
    (hseen : normalize (jsTrimStr node.questionOriginal) ∉
      (recordEdge st node).seen) :
    dedupPass st (node :: rest) =
      ((dedupPass { recordEdge st node with
          seen := (recordEdge st node).seen ++
            [normalize (jsTrimStr node.questionOriginal)] } rest).1,
        Node.mk (jsTrimStr node.questionOriginal) (dedupParent node)
          node.depth ::
          (dedupPass { recordEdge st node with
            seen := (recordEdge st node).seen ++
              [normalize (jsTrimStr node.questionOriginal)] } rest).2) := by
  simp only [dedupPass]
  rw [if_neg hq, if_neg hseen]

theorem dedupPass_spec :
    ∀ (pocket : List Node) (st : EngineState),
    (dedupPass st pocket).1.answered = st.answered ∧
    (dedupPass st pocket).1.totalGenerated = st.totalGenerated ∧
    (dedupPass st pocket).1.seen = st.seen ++ ((dedupPass st pocket).2.map nkey) ∧
    ((dedupPass st pocket).2.map nkey).Nodup ∧
    (∀ n ∈ (dedupPass st pocket).2, nkey n ∉ st.seen) := by
  intro pocket
  induction pocket with
  | nil =>
    intro st
    simp [dedupPass]
  | cons node rest ih =>
    intro st
    by_cases hq : jsTrimStr node.questionOriginal = ""
    · rw [dedupPass_cons_skip hq]
      exact ih st
    · obtain ⟨hre1, hre2, hre3⟩ := recordEdge_fields st node
      by_cases hseen : normalize (jsTrimStr node.questionOriginal) ∈
          (recordEdge st node).seen
      · rw [dedupPass_cons_seen hq hseen]
        obtain ⟨i1, i2, i3, i4, i5⟩ := ih (recordEdge st node)
        refine ⟨i1.trans hre1, i2.trans hre3, ?_, i4, ?_⟩
        · rw [i3, hre2]
        · intro n hn
          rw [← hre2]
          exact i5 n hn
      · rw [dedupPass_cons_new hq hseen]
        obtain ⟨i1, i2, i3, i4, i5⟩ :=
          ih { recordEdge st node with
            seen := (recordEdge st node).seen ++
              [normalize (jsTrimStr node.questionOriginal)] }
        have hkeyfresh : ∀ n ∈ (dedupPass { recordEdge st node with
            seen := (recordEdge st node).seen ++
              [normalize (jsTrimStr node.questionOriginal)] } rest).2,
            nkey n ≠ normalize (jsTrimStr node.questionOriginal) := by
          intro n hn hc
          have := i5 n hn
          rw [hc] at this
          exact this (by simp)
        refine ⟨i1.trans hre1, i2.trans hre3, ?_, ?_, ?_⟩
        · rw [i3]
          simp only [hre2, List.map_cons]
          rw [List.append_assoc]
          rfl
        · simp only [List.map_cons, List.nodup_cons]
          refine ⟨?_, i4⟩
          intro hc
          simp only [List.mem_map] at hc
          obtain ⟨n, hn, he⟩ := hc
          exact hkeyfresh n hn he
        · intro n hn
          simp only [List.mem_cons] at hn
          rcases hn with rfl | hn
          · simpa [nkey, hre2] using hseen
          · intro hc
            exact i5 n hn (by simp [hre2]; left; rw [← hre2] at hc; exact (by rw [hre2] at hc; exact hc))

theorem dedupPass_depths :
    ∀ (pocket : List Node) (st : EngineState),
    ∀ n' ∈ (dedupPass st pocket).2, ∃ n ∈ pocket, n'.depth = n.depth := by
  intro pocket
  induction pocket with
  | nil =>
    intro st n' h
    simp [dedupPass] at h
  | cons node rest ih =>
    intro st n' h
    by_cases hq : jsTrimStr node.questionOriginal = ""
    · rw [dedupPass_cons_skip hq] at h
      obtain ⟨n, hn, he⟩ := ih st n' h
      exact ⟨n, List.mem_cons_of_mem _ hn, he⟩
    · by_cases hseen : normalize (jsTrimStr node.questionOriginal) ∈
          (recordEdge st node).seen
      · rw [dedupPass_cons_seen hq hseen] at h
        obtain ⟨n, hn, he⟩ := ih _ n' h
        exact ⟨n, List.mem_cons_of_mem _ hn, he⟩
      · rw [dedupPass_cons_new hq hseen] at h
        simp only [List.mem_cons] at h
        rcases h with rfl | h
        · exact ⟨node, List.mem_cons_self _ _, rfl⟩
        · obtain ⟨n, hn, he⟩ := ih _ n' h
          exact ⟨n, List.mem_cons_of_mem _ hn, he⟩

theorem expandNodes_depth (q : String) (depth : Nat) (subs : List String) :
    ∀ n' ∈ expandNodes q depth subs, n'.depth = depth + 1 := by
  intro n' hn'
  simp only [expandNodes, List.mem_map] at hn'
  obtain ⟨sq, -, rfl⟩ := hn'
  rfl

theorem processNode_next_depth {P : Providers} {MAXD : Nat} {q : String}
    {po : Option String} {depth : Nat} {entry : AnsweredEntry} {next : List Node}
    (h : processNode P MAXD q po depth = .ok (entry, next)) :
    (∀ n' ∈ next, n'.depth = depth + 1) ∧ (MAXD ≤ depth → next = []) := by
  unfold processNode at h
  by_cases hc : P.classify q = false
  · rw [if_pos hc] at h
    simp only [Except.ok.injEq, Prod.mk.injEq] at h
    obtain ⟨-, h2⟩ := h
    subst h2
    constructor
    · intro n' hn'
      by_cases hd : depth < MAXD
      · rw [if_pos hd] at hn'
        exact expandNodes_depth _ _ _ n' hn'
      · rw [if_neg hd] at hn'
        simp at hn'
    · intro hle
      rw [if_neg (by omega)]
  · rw [if_neg hc] at h
    cases hres : resolveQuantifiable P q with
    | error e =>
      rw [hres] at h
      simp at h
    | ok v =>
      obtain ⟨a, src, links⟩ := v
      rw [hres] at h
      simp only [Except.ok.injEq, Prod.mk.injEq] at h
      obtain ⟨-, h2⟩ := h
      subst h2
      constructor
      · intro n' hn'
        by_cases hd : depth < MAXD
        · rw [if_pos hd] at hn'
          exact expandNodes_depth _ _ _ n' hn'
        · rw [if_neg hd] at hn'
          simp at hn'
      · intro hle
        rw [if_neg (by omega)]

theorem processNodes_nil {P : Providers} {MAXD : Nat} {st : EngineState} :
    processNodes P MAXD st [] = .ok (st, []) := rfl

theorem processNodes_next_depth {P : Providers} {MAXD : Nat} :
    ∀ {ns : List Node} {st st2 : EngineState} {nexts : List Node},
    processNodes P MAXD st ns = .ok (st2, nexts) →
    ∀ n' ∈ nexts, ∃ n ∈ ns, n'.depth = n.depth + 1 := by
  intro ns
  induction ns with
  | nil =>
    intro st st2 nexts h n' hn'
    rw [processNodes_nil] at h
    simp only [Except.ok.injEq, Prod.mk.injEq] at h
    obtain ⟨-, h2⟩ := h
    subst h2
    simp at hn'
  | cons n rest ih =>
    intro st st2 nexts h n' hn'
    simp only [processNodes] at h
    cases hp : processNode P MAXD n.questionOriginal n.parentOriginal n.depth with
    | error e => simp [hp] at h
    | ok v =>
      obtain ⟨entry, next⟩ := v
      simp only [hp] at h
      cases hrest : processNodes P MAXD
          { st with
            answered := mapSet st.answered (normalize n.questionOriginal) entry
            totalGenerated := st.totalGenerated + next.length } rest with
      | error e => simp [hrest] at h
      | ok w =>
        obtain ⟨stw, rests⟩ := w
        simp only [hrest, Except.ok.injEq, Prod.mk.injEq] at h
        obtain ⟨-, h2⟩ := h
        subst h2
        rcases List.mem_append.mp hn' with hmem | hmem
        · exact ⟨n, List.mem_cons_self _ _,
            (processNode_next_depth hp).1 n' hmem⟩
        · obtain ⟨m, hm, he⟩ := ih hrest n' hmem
          exact ⟨m, List.mem_cons_of_mem _ hm, he⟩

theorem processNodes_halts {P : Providers} {MAXD : Nat} :
    ∀ {ns : List Node} {st st2 : EngineState} {nexts : List Node},
    processNodes P MAXD st ns = .ok (st2, nexts) →
    (∀ n ∈ ns, MAXD ≤ n.depth) → nexts = [] := by
  intro ns
  induction ns with
  | nil =>
    intro st st2 nexts h hdep
    rw [processNodes_nil] at h
    simp only [Except.ok.injEq, Prod.mk.injEq] at h
    exact h.2.symm
  | cons n rest ih =>
    intro st st2 nexts h hdep
    simp only [processNodes] at h
    cases hp : processNode P MAXD n.questionOriginal n.parentOriginal n.depth with
    | error e => simp [hp] at h
    | ok v =>
      obtain ⟨entry, next⟩ := v
      simp only [hp] at h
      cases hrest : processNodes P MAXD
          { st with
            answered := mapSet st.answered (normalize n.questionOriginal) entry
            totalGenerated := st.totalGenerated + next.length } rest with
      | error e => simp [hrest] at h
      | ok w =>
        obtain ⟨stw, rests⟩ := w
        simp only [hrest, Except.ok.injEq, Prod.mk.injEq] at h
        obtain ⟨-, h2⟩ := h
        have hnext : next = [] :=
          (processNode_next_depth hp).2 (hdep n (List.mem_cons_self _ _))
        have hrests : rests = [] :=
          ih hrest (fun x hx => hdep x (List.mem_cons_of_mem _ hx))
        rw [← h2, hnext, hrests]
        rfl

theorem processRound_eq (P : Providers) (MAXD : Nat) (st : EngineState)
    (pocket : List Node) :
    processRound P MAXD st pocket =
      if (dedupPass st pocket).2.isEmpty then .ok ((dedupPass st pocket).1, [])
      else processNodes P MAXD (dedupPass st pocket).1 (dedupPass st pocket).2 := by
  unfold processRound
  rcases dedupPass st pocket with ⟨stA, uniq⟩
  rfl

theorem processRound_next_depths {P : Providers} {MAXD : Nat}
    {st st1 : EngineState} {pocket next : List Node}
    (h : processRound P MAXD st pocket = .ok (st1, next)) :
    ∀ n' ∈ next, ∃ n ∈ pocket, n'.depth = n.depth + 1 := by
  rw [processRound_eq] at h
  by_cases he : (dedupPass st pocket).2.isEmpty
  · rw [if_pos he] at h
    simp only [Except.ok.injEq, Prod.mk.injEq] at h
    obtain ⟨-, h2⟩ := h
    subst h2
    intro n' hn'
    simp at hn'
  · rw [if_neg he] at h
    intro n' hn'
    obtain ⟨m, hm, hd⟩ := processNodes_next_depth h n' hn'
    obtain ⟨n, hn, he2⟩ := dedupPass_depths pocket st m hm
    exact ⟨n, hn, by rw [hd, he2]⟩

theorem processRound_halts {P : Providers} {MAXD : Nat}
    {st st1 : EngineState} {pocket next : List Node}
    (hdep : ∀ n ∈ pocket, MAXD ≤ n.depth)
    (h : processRound P MAXD st pocket = .ok (st1, next)) : next = [] := by
  rw [processRound_eq] at h
  by_cases he : (dedupPass st pocket).2.isEmpty
  · rw [if_pos he] at h
    simp only [Except.ok.injEq, Prod.mk.injEq] at h
    exact h.2.symm
  · rw [if_neg he] at h
    refine processNodes_halts h ?_
    intro m hm
    obtain ⟨n, hn, he2⟩ := dedupPass_depths pocket st m hm
    rw [he2]
    exact hdep n hn

theorem runLoop_nil (P : Providers) (MAXD : Nat) (st : EngineState) :
    ∀ fuel, runLoop P MAXD fuel st [] = .ok st := by
  intro fuel
  cases fuel with
  | zero => rfl
  | succ f => simp [runLoop]

theorem runLoop_fuel_bound (P : Providers) (MAXD : Nat) :
    ∀ (m fuel1 fuel2 : Nat) (st : EngineState) (pocket : List Node),
    (∀ n ∈ pocket, MAXD ≤ n.depth + m) →
    m + 2 ≤ fuel1 → m + 2 ≤ fuel2 →
    runLoop P MAXD fuel1 st pocket = runLoop P MAXD fuel2 st pocket := by
  intro m
  induction m with
  | zero =>
    intro fuel1 fuel2 st pocket hdep h1 h2
    obtain ⟨f1, rfl⟩ : ∃ f, fuel1 = f + 1 := ⟨fuel1 - 1, by omega⟩
    obtain ⟨f2, rfl⟩ : ∃ f, fuel2 = f + 1 := ⟨fuel2 - 1, by omega⟩
    by_cases hp : pocket.isEmpty
    · simp [runLoop, hp]
    · simp only [runLoop]
      rw [if_neg hp, if_neg hp]
      cases hr : processRound P MAXD st pocket with
      | error e => rfl
      | ok v =>
        obtain ⟨st1, next⟩ := v
        have hnil : next = [] := processRound_halts (by simpa using hdep) hr
        subst hnil
        show runLoop P MAXD f1 st1 [] = runLoop P MAXD f2 st1 []
        rw [runLoop_nil, runLoop_nil]
  | succ m ih =>
    intro fuel1 fuel2 st pocket hdep h1 h2
    obtain ⟨f1, rfl⟩ : ∃ f, fuel1 = f + 1 := ⟨fuel1 - 1, by omega⟩
    obtain ⟨f2, rfl⟩ : ∃ f, fuel2 = f + 1 := ⟨fuel2 - 1, by omega⟩
    by_cases hp : pocket.isEmpty
    · simp [runLoop, hp]
    · simp only [runLoop]
      rw [if_neg hp, if_neg hp]
      cases hr : processRound P MAXD st pocket with
      | error e => rfl
      | ok v =>
        obtain ⟨st1, next⟩ := v
        show runLoop P MAXD f1 st1 next = runLoop P MAXD f2 st1 next
        apply ih f1 f2 st1 next ?_ (by omega) (by omega)
        intro n' hn'
        obtain ⟨n, hn, he⟩ := processRound_next_depths hr n' hn'
        have := hdep n hn
        omega

/-- C4: with depth bound `d` (`MAX_DEPTH = 1` in the source), the frontier
loop started at depth 0 is insensitive to any fuel of at least `d + 2` —
it finishes within `d + 1` rounds no matter how many sub-questions or
follow-ups the providers propose — because every node generated in a round
has depth one greater than some node of that round's pocket, and a round
whose pocket is entirely at depth ≥ d generates an empty next pocket. -/
theorem engine_terminates_within_depth_rounds (P : Providers) (d : Nat)
    (st : EngineState) (pocket : List Node) (fuel : Nat)
    (hdepth : ∀ n ∈ pocket, n.depth = 0) (hfuel : d + 2 ≤ fuel) :
    runLoop P d fuel st pocket = runLoop P d (d + 2) st pocket ∧
    (∀ st0 pk st1 next, processRound P d st0 pk = .ok (st1, next) →
      (∀ n' ∈ next, ∃ n ∈ pk, n'.depth = n.depth + 1) ∧
      ((∀ n ∈ pk, d ≤ n.depth) → next = [])) := by
  constructor
  · exact runLoop_fuel_bound P d d fuel (d + 2) st pocket
      (fun n hn => by rw [hdepth n hn]; omega) hfuel (by omega)
  · intro st0 pk st1 next hr
    exact ⟨processRound_next_depths hr, fun hd => processRound_halts hd hr⟩

/-- Witness for `engine_terminates_within_depth_rounds`. -/
theorem engine_terminates_within_depth_rounds_witness :
    runLoop stubProviders 1 9 ⟨[], [], [], 1⟩ [Node.mk "w" none 0] =
      runLoop stubProviders 1 3 ⟨[], [], [], 1⟩ [Node.mk "w" none 0] :=
  (engine_terminates_within_depth_rounds stubProviders 1 ⟨[], [], [], 1⟩
    [Node.mk "w" none 0] 9 (by decide) (by omega)).1

/-- The engine invariant backing write-once: answered keys are pairwise
distinct, and every answered key is in `seen`. -/
def EngInv (st : EngineState) : Prop :=
  (st.answered.map Prod.fst).Nodup ∧
  ∀ k ∈ st.answered.map Prod.fst, k ∈ st.seen

theorem processNodes_writes {P : Providers} {MAXD : Nat} :
    ∀ {ns : List Node} {st st2 : EngineState} {nexts : List Node},
    processNodes P MAXD st ns = .ok (st2, nexts) →
    (∀ n ∈ ns, nkey n ∉ st.answered.map Prod.fst) →
    (ns.map nkey).Nodup →
    st2.seen = st.seen ∧ st2.children = st.children ∧
    st2.answered.map Prod.fst = st.answered.map Prod.fst ++ ns.map nkey ∧
    (∀ k, k ∉ ns.map nkey → mlookup st2.answered k = mlookup st.answered k) := by
  intro ns
  induction ns with
  | nil =>
    intro st st2 nexts h hfresh hnodup
    rw [processNodes_nil] at h
    simp only [Except.ok.injEq, Prod.mk.injEq] at h
    obtain ⟨h1, -⟩ := h
    subst h1
    exact ⟨rfl, rfl, by simp, fun k _ => rfl⟩
  | cons n rest ih =>
    intro st st2 nexts h hfresh hnodup
    simp only [processNodes] at h
    cases hp : processNode P MAXD n.questionOriginal n.parentOriginal n.depth with
    | error e => simp [hp] at h
    | ok v =>
      obtain ⟨entry, next⟩ := v
      simp only [hp] at h
      cases hrest : processNodes P MAXD
          { st with
            answered := mapSet st.answered (normalize n.questionOriginal) entry
            totalGenerated := st.totalGenerated + next.length } rest with
      | error e => simp [hrest] at h
      | ok w =>
        obtain ⟨stw, rests⟩ := w
        simp only [hrest, Except.ok.injEq, Prod.mk.injEq] at h
        obtain ⟨h1, -⟩ := h
        subst h1
        have hkeyfresh : nkey n ∉ st.answered.map Prod.fst :=
          hfresh n (List.mem_cons_self _ _)
        have hmidkeys :
            (mapSet st.answered (normalize n.questionOriginal) entry).map
                Prod.fst =
              st.answered.map Prod.fst ++ [nkey n] :=
          keys_mapSet_fresh _ _ _ hkeyfresh
        have hcons :
            nkey n ∉ rest.map nkey ∧ (rest.map nkey).Nodup :=
          List.nodup_cons.mp (by simpa using hnodup)
        have hfresh' : ∀ x ∈ rest, nkey x ∉
            (mapSet st.answered (normalize n.questionOriginal) entry).map
              Prod.fst := by
          intro x hx
          rw [hmidkeys]
          simp only [List.mem_append, List.mem_singleton]
          push_neg
          refine ⟨hfresh x (List.mem_cons_of_mem _ hx), ?_⟩
          intro hc
          exact hcons.1 (hc ▸ List.mem_map_of_mem nkey hx)
        obtain ⟨i1, i2, i3, i4⟩ := ih hrest hfresh' hcons.2
        refine ⟨i1, i2, ?_, ?_⟩
        · rw [i3]
          show (mapSet st.answered (normalize n.questionOriginal) entry).map
              Prod.fst ++ rest.map nkey = _
          rw [hmidkeys, List.append_assoc]
          rfl
        · intro k hk
          simp only [List.map_cons, List.mem_cons] at hk
          push_neg at hk
          rw [i4 k hk.2]
          exact mlookup_mapSet_other _ _ _ _ hk.1

theorem processRound_preserves {P : Providers} {MAXD : Nat}
    {st st1 : EngineState} {pocket next : List Node}
    (hinv : EngInv st)
    (h : processRound P MAXD st pocket = .ok (st1, next)) :
    EngInv st1 ∧
    ∀ k e, mlookup st.answered k = some e → mlookup st1.answered k = some e := by
  rw [processRound_eq] at h
  obtain ⟨d1, d2, d3, d4, d5⟩ := dedupPass_spec pocket st
  by_cases he : (dedupPass st pocket).2.isEmpty
  · rw [if_pos he] at h
    simp only [Except.ok.injEq, Prod.mk.injEq] at h
    obtain ⟨h1, -⟩ := h
    subst h1
    refine ⟨⟨?_, ?_⟩, ?_⟩
    · rw [d1]
      exact hinv.1
    · intro k hk
      rw [d1] at hk
      rw [d3]
      exact List.mem_append_left _ (hinv.2 k hk)
    · intro k e hk
      rw [d1]
      exact hk
  · rw [if_neg he] at h
    have hfresh : ∀ n ∈ (dedupPass st pocket).2,
        nkey n ∉ (dedupPass st pocket).1.answered.map Prod.fst := by
      intro n hn hc
      rw [d1] at hc
      exact d5 n hn (hinv.2 _ hc)
    obtain ⟨w1, w2, w3, w4⟩ := processNodes_writes h hfresh d4
    refine ⟨⟨?_, ?_⟩, ?_⟩
    · rw [w3, d1]
      rw [List.nodup_append]
      refine ⟨hinv.1, d4, ?_⟩
      intro a ha hb
      simp only [List.mem_map] at hb
      obtain ⟨n, hn, hbn⟩ := hb
      exact d5 n hn (hbn ▸ hinv.2 a ha)
    · intro k hk
      rw [w3, d1] at hk
      rw [w1, d3]
      rcases List.mem_append.mp hk with hk | hk
      · exact List.mem_append_left _ (hinv.2 k hk)
      · exact List.mem_append_right _ hk
    · intro k e hk
      have hknot : k ∉ (dedupPass st pocket).2.map nkey := by
        intro hc
        simp only [List.mem_map] at hc
        obtain ⟨n, hn, hkn⟩ := hc
        exact d5 n hn (hkn ▸ hinv.2 _ (mem_keys_of_mlookup hk))
      rw [w4 k hknot, d1]
      exact hk

/-- C3: over every run of the frontier loop from a state satisfying the
engine invariant (answered keys pairwise distinct, each already in
`seen`), the invariant is preserved and every existing answered entry
survives unchanged — each NormalizedKey is written into `answered` at
most once and never overwritten, however often a question with that key
is proposed as a child across branches or rounds. -/
theorem answered_write_once (P : Providers) (MAXD : Nat) :
    ∀ (fuel : Nat) (st : EngineState) (pocket : List Node) (st' : EngineState),
    EngInv st → runLoop P MAXD fuel st pocket = .ok st' →
    EngInv st' ∧
    ∀ k e, mlookup st.answered k = some e → mlookup st'.answered k = some e := by
  intro fuel
  induction fuel with
  | zero =>
    intro st pocket st' hinv h
    simp only [runLoop, Except.ok.injEq] at h
    subst h
    exact ⟨hinv, fun k e hk => hk⟩
  | succ f ih =>
    intro st pocket st' hinv h
    simp only [runLoop] at h
    by_cases hp : pocket.isEmpty
    · rw [if_pos hp] at h
      simp only [Except.ok.injEq] at h
      subst h
      exact ⟨hinv, fun k e hk => hk⟩
    · rw [if_neg hp] at h
      cases hr : processRound P MAXD st pocket with
      | error e => simp [hr] at h
      | ok v =>
        obtain ⟨st1, next⟩ := v
        simp only [hr] at h
        obtain ⟨hinv1, hpres1⟩ := processRound_preserves hinv hr
        obtain ⟨hinv2, hpres2⟩ := ih st1 next st' hinv1 h
        exact ⟨hinv2, fun k e hk => hpres2 k e (hpres1 k e hk)⟩

/-- Witness for `answered_write_once` on a concrete one-question run. -/
theorem answered_write_once_witness :
    EngInv ⟨[("w2", ⟨"w2", false, "[Not answered — non-quantifiable]", none,
      [], none, none⟩)], [], ["w2"], 1⟩ ∧
    ∀ k e, mlookup (⟨[], [], [], 1⟩ : EngineState).answered k = some e →
      mlookup [("w2", ⟨"w2", false, "[Not answered — non-quantifiable]", none,
        [], none, none⟩)] k = some e :=
  answered_write_once stubProviders 1 3 ⟨[], [], [], 1⟩ [Node.mk "w2" none 0]
    ⟨[("w2", ⟨"w2", false, "[Not answered — non-quantifiable]", none, [],
      none, none⟩)], [], ["w2"], 1⟩
    (by constructor <;> simp [EngInv]) rfl

/-! ### Edge completeness (C5) -/

theorem toList_mk (l : List Char) : (String.mk l).toList = l := rfl

theorem jsTrimList_idem (l : List Char) :
    jsTrimList (jsTrimList l) = jsTrimList l :=
  jsTrimList_eq_self (headNotWs_jsTrimList l) (lastNotWs_jsTrimList l)

theorem normalize_jsTrim_ne_empty {p : String} (h : jsTrimStr p ≠ "") :
    normalize (jsTrimStr p) ≠ "" := by
  intro hc
  have hlist : normList (jsTrimList p.toList) = [] := by
    have h2 := congrArg String.toList hc
    simpa [normalize, jsTrimStr, toList_mk] using h2
  have hne : jsTrimList p.toList ≠ [] := by
    intro h0
    apply h
    show String.mk (jsTrimList p.toList) = ""
    rw [h0]
  obtain ⟨c, cs, hcons⟩ : ∃ c cs, jsTrimList p.toList = c :: cs := by
    rcases hx : jsTrimList p.toList with _ | ⟨c, cs⟩
    · exact absurd hx hne
    · exact ⟨c, cs, rfl⟩
  have hcw : isWs c = false := by
    have hh := headNotWs_jsTrimList p.toList
    rw [hcons] at hh
    exact hh c rfl
  have hidem : jsTrimList (c :: cs) = c :: cs := by
    rw [← hcons, jsTrimList_idem]
  rw [hcons] at hlist
  unfold normList at hlist
  rw [hidem, collapseWsAux_cons_not_ws hcw] at hlist
  simp at hlist

/-- Per-bucket key uniqueness of the recorded edges. -/
def EdgeInv (st : EngineState) : Prop :=
  ∀ pk, ((edgesAt st pk).map Edge.key).Nodup

theorem edgesAt_addChild_other {st : EngineState} {pk pk' ck co : String}
    (h : pk' ≠ pk) : edgesAt (addChild st pk ck co) pk' = edgesAt st pk' := by
  unfold addChild
  by_cases hz : pk = ""
  · rw [if_pos hz]
  · rw [if_neg hz]
    unfold edgesAt
    rw [mlookup_mapSet_other _ _ _ _ h]

theorem edgesAt_addChild_self {st : EngineState} {pk ck co : String}
    (hz : pk ≠ "") :
    edgesAt (addChild st pk ck co) pk =
      (if (edgesAt st pk).any (fun x => x.key == ck) then edgesAt st pk
       else edgesAt st pk ++ [⟨ck, co⟩]) := by
  unfold addChild
  rw [if_neg hz]
  unfold edgesAt
  rw [mlookup_mapSet_self]
  rfl

theorem countP_eq_one_of_any {l : List Edge} {ck : String}
    (hmem : l.any (fun x => x.key == ck) = true)
    (hnd : (l.map Edge.key).Nodup) :
    l.countP (fun e => e.key == ck) = 1 := by
  induction l with
  | nil => simp at hmem
  | cons e rest ih =>
    simp only [List.any_cons, Bool.or_eq_true] at hmem
    simp only [List.map_cons, List.nodup_cons] at hnd
    by_cases hek : (e.key == ck) = true
    · have heq : e.key = ck := by simpa using hek
      have h0 : rest.countP (fun x => x.key == ck) = 0 := by
        rw [List.countP_eq_zero]
        intro x hx hpx
        have hxk : x.key ∈ rest.map Edge.key := List.mem_map_of_mem Edge.key hx
        have hxe : x.key = ck := by simpa using hpx
        rw [hxe, ← heq] at hxk
        exact hnd.1 hxk
      simp [List.countP_cons, hek, h0]
    · rcases hmem with hm | hm
      · exact absurd hm hek
      · have hres := ih hm hnd.2
        simp [List.countP_cons, hek, hres]

theorem addChild_count_self {st : EngineState} {pk ck co : String}
    (hz : pk ≠ "") (hinv : EdgeInv st) :
    (edgesAt (addChild st pk ck co) pk).countP (fun e => e.key == ck) = 1 := by
  rw [edgesAt_addChild_self hz]
  by_cases hmem : (edgesAt st pk).any (fun x => x.key == ck) = true
  · rw [if_pos hmem]
    exact countP_eq_one_of_any hmem (hinv pk)
  · rw [if_neg hmem, List.countP_append]
    have h0 : (edgesAt st pk).countP (fun e => e.key == ck) = 0 := by
      rw [List.countP_eq_zero]
      intro x hx hpx
      exact hmem (List.any_eq_true.mpr ⟨x, hx, hpx⟩)
    rw [h0]
    simp

theorem addChild_edgeInv {st : EngineState} {pk ck co : String}
    (hinv : EdgeInv st) : EdgeInv (addChild st pk ck co) := by
  intro pk'
  by_cases hz : pk = ""
  · unfold addChild
    rw [if_pos hz]
    exact hinv pk'
  · by_cases hp : pk' = pk
    · subst hp
      rw [edgesAt_addChild_self hz]
      by_cases hmem : (edgesAt st pk').any (fun x => x.key == ck) = true
      · rw [if_pos hmem]
        exact hinv pk'
      · rw [if_neg hmem, List.map_append, List.nodup_append]
        refine ⟨hinv pk', by simp, ?_⟩
        intro a ha hb
        simp only [List.map_cons, List.map_nil, List.mem_singleton] at hb
        subst hb
        simp only [List.mem_map] at ha
        obtain ⟨x, hx, hxk⟩ := ha
        exact absurd (List.any_eq_true.mpr ⟨x, hx, by simp [hxk]⟩) hmem
    · rw [edgesAt_addChild_other hp]
      exact hinv pk'

theorem addChild_count_mono {st : EngineState} {pk0 ck0 pk ck co : String}
    (h1 : (edgesAt st pk0).countP (fun e => e.key == ck0) = 1) :
    (edgesAt (addChild st pk ck co) pk0).countP (fun e => e.key == ck0) = 1 := by
  by_cases hz : pk = ""
  · unfold addChild
    rw [if_pos hz]
    exact h1
  · by_cases hp : pk0 = pk
    · subst hp
      rw [edgesAt_addChild_self hz]
      by_cases hmem : (edgesAt st pk0).any (fun x => x.key == ck) = true
      · rw [if_pos hmem]
        exact h1
      · rw [if_neg hmem, List.countP_append, h1]
        have h0 : ([(⟨ck, co⟩ : Edge)] : List Edge).countP
            (fun e => e.key == ck0) = 0 := by
          by_cases hcc : ck = ck0
          · subst hcc
            exfalso
            have hex : ∃ x ∈ edgesAt st pk0, (x.key == ck) = true :=
              List.countP_pos_iff.mp (by omega)
            obtain ⟨x, hx, hxk⟩ := hex
            exact absurd (List.any_eq_true.mpr ⟨x, hx, hxk⟩) hmem
          · simp [hcc]
        rw [h0]
    · rw [edgesAt_addChild_other hp]
      exact h1

theorem recordEdge_edgeInv {st : EngineState} {node : Node}
    (hinv : EdgeInv st) : EdgeInv (recordEdge st node) := by
  unfold recordEdge
  cases optNormalize (dedupParent node) with
  | none => exact hinv
  | some pk => exact addChild_edgeInv hinv

theorem recordEdge_count_mono {st : EngineState} {node : Node}
    {pk0 ck0 : String}
    (h1 : (edgesAt st pk0).countP (fun e => e.key == ck0) = 1) :
    (edgesAt (recordEdge st node) pk0).countP (fun e => e.key == ck0) = 1 := by
  unfold recordEdge
  cases optNormalize (dedupParent node) with
  | none => exact h1
  | some pk => exact addChild_count_mono h1

theorem recordEdge_count_self {st : EngineState} {node : Node} {p : String}
    (hinv : EdgeInv st)
    (hp : node.parentOriginal = some p) (hp0 : p ≠ "")
    (hpt : jsTrimStr p ≠ "") :
    (edgesAt (recordEdge st node) (normalize (jsTrimStr p))).countP
      (fun e => e.key == normalize (jsTrimStr node.questionOriginal)) = 1 := by
  have hdp : dedupParent node = some (jsTrimStr p) := by
    simp only [dedupParent, hp]
    rw [if_neg hp0]
  have hopt : optNormalize (dedupParent node) =
      some (normalize (jsTrimStr p)) := by
    simp only [optNormalize, hdp]
    rw [if_neg hpt]
  unfold recordEdge
  simp only [hopt]
  exact addChild_count_self (normalize_jsTrim_ne_empty hpt) hinv

theorem dedupPass_edges :
    ∀ (pocket : List Node) (st : EngineState), EdgeInv st →
    EdgeInv (dedupPass st pocket).1 ∧
    (∀ pk0 ck0, (edgesAt st pk0).countP (fun e => e.key == ck0) = 1 →
      (edgesAt (dedupPass st pocket).1 pk0).countP
        (fun e => e.key == ck0) = 1) ∧
    (∀ n ∈ pocket, ∀ p, n.parentOriginal = some p → p ≠ "" →
      jsTrimStr p ≠ "" → jsTrimStr n.questionOriginal ≠ "" →
      (edgesAt (dedupPass st pocket).1 (normalize (jsTrimStr p))).countP
        (fun e => e.key == normalize (jsTrimStr n.questionOriginal)) = 1) := by
  intro pocket
  induction pocket with
  | nil =>
    intro st hinv
    refine ⟨hinv, fun pk0 ck0 h => h, ?_⟩
    intro n hn
    simp at hn
  | cons node rest ih =>
    intro st hinv
    by_cases hq : jsTrimStr node.questionOriginal = ""
    · rw [dedupPass_cons_skip hq]
      obtain ⟨i1, i2, i3⟩ := ih st hinv
      refine ⟨i1, i2, ?_⟩
      intro n hn p hp hp0 hpt hqn
      rcases List.mem_cons.mp hn with rfl | hn
      · exact absurd hq hqn
      · exact i3 n hn p hp hp0 hpt hqn
    · have hinv1 : EdgeInv (recordEdge st node) := recordEdge_edgeInv hinv
      by_cases hseen : normalize (jsTrimStr node.questionOriginal) ∈
          (recordEdge st node).seen
      · rw [dedupPass_cons_seen hq hseen]
        obtain ⟨i1, i2, i3⟩ := ih (recordEdge st node) hinv1
        refine ⟨i1, ?_, ?_⟩
        · intro pk0 ck0 h
          exact i2 pk0 ck0 (recordEdge_count_mono h)
        · intro n hn p hp hp0 hpt hqn
          rcases List.mem_cons.mp hn with rfl | hn
          · exact i2 _ _ (recordEdge_count_self hinv hp hp0 hpt)
          · exact i3 n hn p hp hp0 hpt hqn
      · rw [dedupPass_cons_new hq hseen]
        obtain ⟨i1, i2, i3⟩ := ih
          { recordEdge st node with
            seen := (recordEdge st node).seen ++
              [normalize (jsTrimStr node.questionOriginal)] }
          (fun pk => hinv1 pk)
        refine ⟨i1, ?_, ?_⟩
        · intro pk0 ck0 h
          exact i2 pk0 ck0 (recordEdge_count_mono h)
        · intro n hn p hp hp0 hpt hqn
          rcases List.mem_cons.mp hn with rfl | hn
          · exact i2 _ _ (recordEdge_count_self hinv hp hp0 hpt)
          · exact i3 n hn p hp hp0 hpt hqn

/-- C5: in the edge-recording pass at the top of a round, every pocket
node with a (non-blank) parent yields exactly one edge entry under its
parent's normalized key.  No hypothesis restricts `seen` or `answered`:
the edge is recorded before the dedup check, so a child whose key was
already seen (or answered) still gets its edge, and duplicate proposals
of the same child key under the same parent never duplicate it — the
per-bucket edge keys stay pairwise distinct. -/
theorem edge_recorded_exactly_once (st : EngineState) (pocket : List Node)
    (hinv : EdgeInv st) (n : Node) (hn : n ∈ pocket) (p : String)
    (hp : n.parentOriginal = some p) (hp0 : p ≠ "")
    (hpt : jsTrimStr p ≠ "") (hq : jsTrimStr n.questionOriginal ≠ "") :
    (edgesAt (dedupPass st pocket).1 (normalize (jsTrimStr p))).countP
      (fun e => e.key == normalize (jsTrimStr n.questionOriginal)) = 1 ∧
    EdgeInv (dedupPass st pocket).1 := by
  obtain ⟨i1, -, i3⟩ := dedupPass_edges pocket st hinv
  exact ⟨i3 n hn p hp hp0 hpt hq, i1⟩

/-- Witness for `edge_recorded_exactly_once`: the child key is already in
`seen` and the same child is proposed twice under the same parent, yet
exactly one edge is recorded. -/
theorem edge_recorded_exactly_once_witness :
    (edgesAt (dedupPass ⟨[], [], ["child q"], 1⟩
        [Node.mk "child q" (some "parent q") 1,
         Node.mk "child q" (some "parent q") 1]).1
      (normalize (jsTrimStr "parent q"))).countP
      (fun e => e.key == normalize (jsTrimStr "child q")) = 1 ∧
    EdgeInv (dedupPass ⟨[], [], ["child q"], 1⟩
        [Node.mk "child q" (some "parent q") 1,
         Node.mk "child q" (some "parent q") 1]).1 :=
  edge_recorded_exactly_once ⟨[], [], ["child q"], 1⟩
    [Node.mk "child q" (some "parent q") 1,
     Node.mk "child q" (some "parent q") 1]
    (fun pk => by simp [edgesAt, mlookup])
    (Node.mk "child q" (some "parent q") 1) (by simp) "parent q" rfl
    (by decide) (by decide) (by decide)

/-! ### Run-level error behaviour (C1) -/

theorem processNode_ok {P : Providers}
    (hsw : ∀ q, ∃ rs, P.searchWeb q = .ok rs)
    (hsy : ∀ q rs, ∃ u, P.synth q rs = .ok u)
    (MAXD : Nat) (q : String) (po : Option String) (depth : Nat) :
    ∃ v, processNode P MAXD q po depth = .ok v := by
  by_cases hc : P.classify q = false
  · exact ⟨_, processNode_nonquant MAXD po depth hc⟩
  · have hcl : P.classify q = true := by
      cases h : P.classify q
      · exact absurd h hc
      · rfl
    have hweb : ∃ w, answerFromWeb P q = .ok w := by
      obtain ⟨rs, hrs⟩ := hsw q
      by_cases hre : rs = []
      · subst hre
        exact ⟨_, answerFromWeb_empty hrs⟩
      · obtain ⟨u, hu⟩ := hsy q rs
        exact ⟨_, answerFromWeb_results hrs hre hu⟩
    obtain ⟨w, hw⟩ := hweb
    have hres : ∃ r, resolveQuantifiable P q = .ok r := by
      cases hkb : P.kb q with
      | error e =>
        cases e
        exact ⟨_, (resolveQuantifiable_notfound (Or.inl hkb)).trans
          (webFallback_ok hw)⟩
      | ok s =>
        by_cases hnf : isMcpNotFound s = false
        · exact ⟨_, resolveQuantifiable_found hkb hnf⟩
        · have hnf2 : isMcpNotFound s = true := by
            cases h : isMcpNotFound s
            · exact absurd h hnf
            · rfl
          exact ⟨_, (resolveQuantifiable_notfound
            (Or.inr ⟨s, hkb, hnf2⟩)).trans (webFallback_ok hw)⟩
    obtain ⟨⟨a, src, links⟩, hr⟩ := hres
    exact ⟨_, processNode_quant MAXD po depth hcl hr⟩

theorem processNodes_cover {P : Providers} {MAXD : Nat} :
    ∀ {ns : List Node} {st st2 : EngineState} {nexts : List Node},
    processNodes P MAXD st ns = .ok (st2, nexts) →
    st2.seen = st.seen ∧
    (∀ k, (mlookup st.answered k).isSome = true →
      (mlookup st2.answered k).isSome = true) ∧
    (∀ n ∈ ns, (mlookup st2.answered (nkey n)).isSome = true) := by
  intro ns
  induction ns with
  | nil =>
    intro st st2 nexts h
    rw [processNodes_nil] at h
    simp only [Except.ok.injEq, Prod.mk.injEq] at h
    obtain ⟨h1, -⟩ := h
    subst h1
    exact ⟨rfl, fun k hk => hk, fun n hn => absurd hn (by simp)⟩
  | cons n rest ih =>
    intro st st2 nexts h
    simp only [processNodes] at h
    cases hp : processNode P MAXD n.questionOriginal n.parentOriginal n.depth with
    | error e => simp [hp] at h
    | ok v =>
      obtain ⟨entry, next⟩ := v
      simp only [hp] at h
      cases hrest : processNodes P MAXD
          { st with
            answered := mapSet st.answered (normalize n.questionOriginal) entry
            totalGenerated := st.totalGenerated + next.length } rest with
      | error e => simp [hrest] at h
      | ok w =>
        obtain ⟨stw, rests⟩ := w
        simp only [hrest, Except.ok.injEq, Prod.mk.injEq] at h
        obtain ⟨h1, -⟩ := h
        subst h1
        obtain ⟨i1, i2, i3⟩ := ih hrest
        refine ⟨i1, ?_, ?_⟩
        · intro k hk
          exact i2 k (mlookup_isSome_mapSet _ _ _ _ hk)
        · intro x hx
          rcases List.mem_cons.mp hx with rfl | hx
          · apply i2
            show (mlookup (mapSet st.answered (normalize x.questionOriginal)
              entry) (nkey x)).isSome = true
            rw [show nkey x = normalize x.questionOriginal from rfl,
              mlookup_mapSet_self]
            rfl
          · exact i3 x hx

theorem processNodes_ok {P : Providers}
    (hsw : ∀ q, ∃ rs, P.searchWeb q = .ok rs)
    (hsy : ∀ q rs, ∃ u, P.synth q rs = .ok u) (MAXD : Nat) :
    ∀ (ns : List Node) (st : EngineState),
    ∃ v, processNodes P MAXD st ns = .ok v := by
  intro ns
  induction ns with
  | nil =>
    intro st
    exact ⟨_, processNodes_nil⟩
  | cons n rest ih =>
    intro st
    obtain ⟨⟨entry, next⟩, hp⟩ := processNode_ok hsw hsy MAXD
      n.questionOriginal n.parentOriginal n.depth
    obtain ⟨⟨stw, rests⟩, hrest⟩ := ih { st with
      answered := mapSet st.answered (normalize n.questionOriginal) entry
      totalGenerated := st.totalGenerated + next.length }
    refine ⟨(stw, next ++ rests), ?_⟩
    simp only [processNodes, hp, hrest]

theorem runLoop_ok {P : Providers}
    (hsw : ∀ q, ∃ rs, P.searchWeb q = .ok rs)
    (hsy : ∀ q rs, ∃ u, P.synth q rs = .ok u) (MAXD : Nat) :
    ∀ (fuel : Nat) (st : EngineState) (pocket : List Node),
    ∃ st', runLoop P MAXD fuel st pocket = .ok st' := by
  intro fuel
  induction fuel with
  | zero =>
    intro st pocket
    exact ⟨st, rfl⟩
  | succ f ih =>
    intro st pocket
    by_cases hp : pocket.isEmpty
    · exact ⟨st, by simp [runLoop, hp]⟩
    · have hpr : ∃ v, processRound P MAXD st pocket = .ok v := by
        rw [processRound_eq]
        by_cases he : (dedupPass st pocket).2.isEmpty
        · rw [if_pos he]
          exact ⟨_, rfl⟩
        · rw [if_neg he]
          exact processNodes_ok hsw hsy MAXD _ _
      obtain ⟨⟨st1, next⟩, hr⟩ := hpr
      obtain ⟨st', hrec⟩ := ih st1 next
      refine ⟨st', ?_⟩
      simp only [runLoop]
      rw [if_neg hp]
      simp only [hr]
      exact hrec

/-- Every seen key has a block in `answered`. -/
def SeenCovered (st : EngineState) : Prop :=
  ∀ k ∈ st.seen, (mlookup st.answered k).isSome = true

theorem processRound_cover {P : Providers} {MAXD : Nat}
    {st st1 : EngineState} {pocket next : List Node}
    (hcov : SeenCovered st)
    (h : processRound P MAXD st pocket = .ok (st1, next)) :
    SeenCovered st1 := by
  rw [processRound_eq] at h
  obtain ⟨d1, -, d3, -, -⟩ := dedupPass_spec pocket st
  by_cases he : (dedupPass st pocket).2.isEmpty
  · rw [if_pos he] at h
    simp only [Except.ok.injEq, Prod.mk.injEq] at h
    obtain ⟨h1, -⟩ := h
    subst h1
    intro k hk
    rw [d3] at hk
    rw [d1]
    rcases List.mem_append.mp hk with hk | hk
    · exact hcov k hk
    · rw [List.isEmpty_iff.mp he] at hk
      simp at hk
  · rw [if_neg he] at h
    obtain ⟨c1, c2, c3⟩ := processNodes_cover h
    intro k hk
    rw [c1, d3] at hk
    rcases List.mem_append.mp hk with hk | hk
    · exact c2 k (by rw [d1]; exact hcov k hk)
    · simp only [List.mem_map] at hk
      obtain ⟨n, hn, rfl⟩ := hk
      exact c3 n hn

theorem runLoop_cover {P : Providers} {MAXD : Nat} :
    ∀ (fuel : Nat) (st : EngineState) (pocket : List Node) (st' : EngineState),
    SeenCovered st → runLoop P MAXD fuel st pocket = .ok st' →
    SeenCovered st' := by
  intro fuel
  induction fuel with
  | zero =>
    intro st pocket st' hcov h
    simp only [runLoop, Except.ok.injEq] at h
    subst h
    exact hcov
  | succ f ih =>
    intro st pocket st' hcov h
    simp only [runLoop] at h
    by_cases hp : pocket.isEmpty
    · rw [if_pos hp] at h
      simp only [Except.ok.injEq] at h
      subst h
      exact hcov
    · rw [if_neg hp] at h
      cases hr : processRound P MAXD st pocket with
      | error e => simp [hr] at h
      | ok v =>
        obtain ⟨st1, next⟩ := v
        simp only [hr] at h
        exact ih st1 next st' (processRound_cover hcov hr) h

/-- Providers exhibiting the missing web-search credential while the
knowledge base reports not-found. -/
def missingKeyProviders : Providers :=
  { stubProviders with
    classify := fun _ => true
    kb := fun _ => .ok "not available in our current document"
    searchWeb := fun _ => .error () }

/-- C1 counterexample: with the knowledge base reporting not-found and
the web-search credential missing (`searchWeb` throws), the thrown
configuration error escapes the `catch` block and rejects the whole
`answerWithAgent` run — it does not degrade that one question's
resolution to a "no data found" block. -/
theorem missing_web_credential_aborts_run :
    answerWithAgent missingKeyProviders
      [ChatMsg.mk "user" (some "What is X?")] = .error () := rfl

/-- C1 (amended): provided the web-search and synthesis calls never
throw, the engine never throws past its top-level contract —
`answerWithAgent` returns ok on every chat — and throughout the frontier
loop every question that passed dedup (entered `seen`) has a block in
`answered` with some answer text.  When the web tier does throw (for
instance the missing-credential configuration error while the knowledge
base reports not-found), the error escapes the catch block and aborts the
whole run instead of degrading that one question. -/
theorem run_ok_when_web_available (P : Providers)
    (hsw : ∀ q, ∃ rs, P.searchWeb q = .ok rs)
    (hsy : ∀ q rs, ∃ u, P.synth q rs = .ok u) :
    (∀ chat, ∃ r, answerWithAgent P chat = .ok r) ∧
    (∀ fuel st pocket st', SeenCovered st →
      runLoop P 1 fuel st pocket = .ok st' → SeenCovered st') := by
  constructor
  · intro chat
    unfold answerWithAgent
    by_cases hq : extractLatestUserQuestion chat = ""
    · rw [if_pos hq]
      exact ⟨_, rfl⟩
    · rw [if_neg hq]
      obtain ⟨st', hrun⟩ := runLoop_ok hsw hsy 1 3 ⟨[], [], [], 1⟩
        [Node.mk (jsTrimStr (extractLatestUserQuestion chat)) none 0]
      exact ⟨_, by simp only [hrun]; rfl⟩
  · intro fuel st pocket st' hcov hrun
    exact runLoop_cover fuel st pocket st' hcov hrun

/-- Witness for `run_ok_when_web_available`. -/
theorem run_ok_when_web_available_witness :
    ∃ r, answerWithAgent stubProviders [ChatMsg.mk "user" (some "W?")] =
      .ok r :=
  (run_ok_when_web_available stubProviders (fun _ => ⟨[], rfl⟩)
    (fun _ _ => ⟨"", rfl⟩)).1 [ChatMsg.mk "user" (some "W?")]

/-! ### The audit/polish collaborator (crewaudit.js) -/

/-- Parsed kickoff response: HTTP `ok` flag and the (JS-truthy)
`task_id`. -/
structure KickoffResp where
  httpOk : Bool
  taskId : Option String
deriving DecidableEq

/-- Parsed status response: HTTP `ok` flag, the `status` string and the
normalized `result` payload (`parsed?.answer` truthy → `answer`;
`Array.isArray(parsed.sources)` → `sources`). -/
structure StatusResp where
  httpOk : Bool
  status : String
  answer : Option String
  sources : Option (List String)
deriving DecidableEq

/-- The collaborator environment: configuration read from the env vars
(JS-falsy when absent or empty) and the transport oracles
(`Except.error` models a rejected `fetch`, which propagates). -/
structure AuditEnv where
  baseUrl : Option String
  token : Option String
  kickoff : Except Unit KickoffResp
  statusAt : Nat → Except Unit StatusResp

/-- Return shape of `auditAndPolish`. -/
structure AuditResult where
  ok : Bool
  answer : String
  sources : List String
deriving DecidableEq

/-- JS falsiness of an env var (absent or empty string). -/
def strFalsy : Option String → Bool
  | none => true
  | some s => s == ""

/-- The polling loop of `auditAndPolish` (crewaudit.js lines 45–77):
attempt index `i`, with `fuel` of the 20 attempts remaining. -/
def pollAudit (env : AuditEnv) (draftAnswer : String)
    (sources : List String) : Nat → Nat → Except Unit AuditResult
  | _, 0 => .ok ⟨true, draftAnswer, sources⟩
  | i, fuel + 1 =>
    match env.statusAt i with
    | .error e => .error e
    | .ok st =>
      if st.httpOk = false then pollAudit env draftAnswer sources (i + 1) fuel
      else if st.status = "completed" then
        match st.answer with
        | some a => .ok ⟨true, a, st.sources.getD sources⟩
        | none => .ok ⟨true, draftAnswer, sources⟩
      else if st.status = "failed" then .ok ⟨true, draftAnswer, sources⟩
      else pollAudit env draftAnswer sources (i + 1) fuel

/-- The function `auditAndPolish` (crewaudit.js lines 6–79). -/
def auditAndPolish (env : AuditEnv) (question : String) (quantifiable : Bool)
    (draftAnswer : String) (sources : List String) :
    Except Unit AuditResult :=
  if quantifiable = false then
    .ok ⟨false, "[Not answered — non-quantifiable]", []⟩
  else if strFalsy env.baseUrl || strFalsy env.token then
    .ok ⟨true, draftAnswer, sources⟩
  else
    match env.kickoff with
    | .error e => .error e
    | .ok k =>
      if k.httpOk = false then .ok ⟨true, draftAnswer, sources⟩
      else
        match k.taskId with
        | none => .ok ⟨true, draftAnswer, sources⟩
        | some _ => pollAudit env draftAnswer sources 0 20

/-- An unconfigured collaborator environment. -/
def unconfiguredEnv : AuditEnv :=
  ⟨none, none, .error (), fun _ => .error ()⟩

/-- C8 counterexample: with the collaborator unconfigured, a
non-quantifiable input is not returned unchanged with ok:true — the
non-quantifiable check fires first and yields the sentinel with
ok:false. -/
theorem audit_nonquant_not_fail_open :
    auditAndPolish unconfiguredEnv "q" false "draft" ["s"] =
      .ok ⟨false, "[Not answered — non-quantifiable]", []⟩ ∧
    (⟨false, "[Not answered — non-quantifiable]", []⟩ : AuditResult) ≠
      ⟨true, "draft", ["s"]⟩ :=
  ⟨rfl, by decide⟩

/-- C8 (amended): for every quantifiable input, an unconfigured
collaborator (missing or empty base URL or token) makes `auditAndPolish`
return the draft answer and sources unchanged with ok:true (fail-open),
and likewise when the kickoff request comes back with a non-OK HTTP
status; a non-quantifiable input instead returns the sentinel with
ok:false, and a rejected fetch propagates as a thrown error. -/
theorem audit_fail_open_when_unconfigured (env : AuditEnv) (q d : String)
    (srcs : List String)
    (hcfg : strFalsy env.baseUrl = true ∨ strFalsy env.token = true) :
    auditAndPolish env q true d srcs = .ok ⟨true, d, srcs⟩ ∧
    (∀ env2 : AuditEnv, ∀ k, env2.kickoff = .ok k → k.httpOk = false →
      auditAndPolish env2 q true d srcs = .ok ⟨true, d, srcs⟩) := by
  constructor
  · unfold auditAndPolish
    rw [if_neg (by simp)]
    have hor : (strFalsy env.baseUrl || strFalsy env.token) = true := by
      rcases hcfg with h | h <;> simp [h]
    rw [if_pos hor]
  · intro env2 k hk hko
    unfold auditAndPolish
    rw [if_neg (by simp)]
    by_cases hb : (strFalsy env2.baseUrl || strFalsy env2.token) = true
    · rw [if_pos hb]
    · rw [if_neg hb]
      simp only [hk]
      rw [if_pos hko]

/-- Witness for `audit_fail_open_when_unconfigured`. -/
theorem audit_fail_open_when_unconfigured_witness :
    auditAndPolish unconfiguredEnv "q" true "draft" ["s"] =
      .ok ⟨true, "draft", ["s"]⟩ :=
  (audit_fail_open_when_unconfigured unconfiguredEnv "q" "draft" ["s"]
    (Or.inl rfl)).1
